import Mathlib

/-!
# Verification of the deskaid core against its specification

This file embeds the configuration resolver of `codemcp/config.py`, and
models (from the specification) the commit-message trailer codec, the
path sandbox validator and the chat-id allocator, then proves or refutes
the specification's claims about them.
-/

set_option maxHeartbeats 1000000

/-! ## Python value model for the configuration resolver

`config.py` manipulates nested Python dictionaries produced by `tomli`.
We model Python values as strings, integers, booleans and
insertion-ordered dictionaries (association lists), which covers every
shape the configuration code inspects.
-/

/-- A Python value as handled by `config.py`: TOML scalars and tables. -/
inductive PyVal : Type where
  | pStr (s : String)
  | pInt (n : Int)
  | pBool (b : Bool)
  | pDict (entries : List (String × PyVal))
deriving Repr

/-- A Python dictionary: insertion-ordered association list. -/
abbrev PyDict := List (String × PyVal)

/-- Boolean equality on `PyVal`, needed because `deriving DecidableEq`
does not handle the nested inductive. -/
def pyValBEq : PyVal → PyVal → Bool
  | .pStr a, .pStr b => a == b
  | .pInt a, .pInt b => a == b
  | .pBool a, .pBool b => a == b
  | .pDict a, .pDict b => goList a b
  | _, _ => false
where goList : List (String × PyVal) → List (String × PyVal) → Bool
  | [], [] => true
  | (k1, v1) :: r1, (k2, v2) :: r2 => k1 == k2 && pyValBEq v1 v2 && goList r1 r2
  | _, _ => false

mutual
theorem pyValBEq_iff : ∀ (a b : PyVal), pyValBEq a b = true ↔ a = b
  | .pStr _, .pStr _ => by simp [pyValBEq]
  | .pStr _, .pInt _ => by simp [pyValBEq]
  | .pStr _, .pBool _ => by simp [pyValBEq]
  | .pStr _, .pDict _ => by simp [pyValBEq]
  | .pInt _, .pStr _ => by simp [pyValBEq]
  | .pInt _, .pInt _ => by simp [pyValBEq]
  | .pInt _, .pBool _ => by simp [pyValBEq]
  | .pInt _, .pDict _ => by simp [pyValBEq]
  | .pBool _, .pStr _ => by simp [pyValBEq]
  | .pBool _, .pInt _ => by simp [pyValBEq]
  | .pBool _, .pBool _ => by simp [pyValBEq]
  | .pBool _, .pDict _ => by simp [pyValBEq]
  | .pDict _, .pStr _ => by simp [pyValBEq]
  | .pDict _, .pInt _ => by simp [pyValBEq]
  | .pDict _, .pBool _ => by simp [pyValBEq]
  | .pDict a, .pDict b => by
      have h := pyGoListBEq_iff a b
      simp [pyValBEq, h]
termination_by a _ => sizeOf a
decreasing_by
  all_goals simp_wf

theorem pyGoListBEq_iff : ∀ (a b : List (String × PyVal)),
    pyValBEq.goList a b = true ↔ a = b
  | [], [] => by simp [pyValBEq.goList]
  | [], _ :: _ => by simp [pyValBEq.goList]
  | _ :: _, [] => by simp [pyValBEq.goList]
  | (k1, v1) :: r1, (k2, v2) :: r2 => by
      have h1 := pyValBEq_iff v1 v2
      have h2 := pyGoListBEq_iff r1 r2
      simp [pyValBEq.goList, h1, h2, and_assoc]
termination_by a _ => sizeOf a
decreasing_by
  all_goals simp_wf
  all_goals omega
end

instance : DecidableEq PyVal := fun a b =>
  decidable_of_iff _ (pyValBEq_iff a b)

/-- `d[k]` lookup returning the first binding, like a Python dict. -/
def dictGet : PyDict → String → Option PyVal
  | [], _ => none
  | (k, v) :: rest, key => if k = key then some v else dictGet rest key

/-- `d[k] = v`: update an existing binding in place, else append. -/
def dictSet : PyDict → String → PyVal → PyDict
  | [], key, val => [(key, val)]
  | (k, v) :: rest, key, val =>
    if k = key then (key, val) :: rest else (k, v) :: dictSet rest key val

/-- Python truthiness `bool(v)` on the values we model. -/
def truthy : PyVal → Bool
  | .pStr s => s ≠ ""
  | .pInt n => n ≠ 0
  | .pBool b => b
  | .pDict d => !d.isEmpty

mutual
/-- The value a key ends up bound to when `_merge_configs` processes an
override entry: dicts on both sides are merged recursively, otherwise
the override value wins. -/
def mergeVal (old : Option PyVal) : PyVal → PyVal
  | PyVal.pDict vd =>
      (match old with
       | some (PyVal.pDict bd) => PyVal.pDict (mergeConfigs bd vd)
       | _ => PyVal.pDict vd)
  | v => v

/-- `_merge_configs(base, override)` from `config.py`: recursively merge
`override` into `base`; where both hold dicts under the same key the
dicts are merged, otherwise the override value replaces the base one.
Returns the merged dict (the code mutates `base`; we thread the value). -/
def mergeConfigs (base : PyDict) : PyDict → PyDict
  | [] => base
  | (key, val) :: rest =>
      mergeConfigs (dictSet base key (mergeVal (dictGet base key) val)) rest
end

/-- The module-level `DEFAULT_CONFIG` of `config.py`. -/
def DEFAULT_CONFIG : PyDict :=
  [("logger", PyVal.pDict [("verbosity", PyVal.pStr "INFO")]),
   ("git", PyVal.pDict [("auto_commit", PyVal.pBool true)])]

/-- A configuration file as seen by the loader: `none` when the file is
absent, `some (Except.error ())` when reading or TOML-parsing raises
(the code catches the exception), `some (Except.ok d)` when it parses
to the table `d`. -/
abbrev ConfigFile := Option (Except Unit PyDict)

/-- The mutation `load_config` inflicts on the module-level
`DEFAULT_CONFIG`: `config = DEFAULT_CONFIG.copy()` is a shallow copy, so
`_merge_configs` recursing into a nested dict mutates the dict object
shared with `DEFAULT_CONFIG`. Top-level rebinding (non-dict override)
affects only the copy. -/
def mergeSharedChildren (base user : PyDict) : PyDict :=
  base.map (fun p =>
    match p.2, dictGet user p.1 with
    | PyVal.pDict bd, some (PyVal.pDict vd) =>
        (p.1, PyVal.pDict (mergeConfigs bd vd))
    | _, _ => p)

/-- `load_config()` from `config.py`: shallow-copy the defaults, merge
the user file into the copy (load errors caught and ignored). Returns
`(returned config, new contents of DEFAULT_CONFIG)`, the second
component capturing the shallow-copy aliasing. -/
def load_config (defaultCfg : PyDict) (userFile : ConfigFile) :
    PyDict × PyDict :=
  match userFile with
  | none => (defaultCfg, defaultCfg)
  | some (Except.error _) => (defaultCfg, defaultCfg)
  | some (Except.ok user) =>
      (mergeConfigs defaultCfg user, mergeSharedChildren defaultCfg user)

/-- `load_project_config(path)` from `config.py`: the parsed
`codemcp.toml` table, or `{}` when the file is absent or loading raises. -/
def load_project_config : ConfigFile → PyDict
  | some (Except.ok d) => d
  | _ => []

/-- Python exceptions `get_auto_commit` can raise. -/
inductive PyErr : Type where
  | typeError
  | attributeError
  | keyError
deriving DecidableEq, Repr

/-- Truthiness of the `project_path` argument (`if project_path:`):
`None` and the empty string are falsy. -/
def pathTruthy : Option String → Bool
  | none => false
  | some s => s != ""

/-- `needle in hay` on Python strings: substring containment. -/
def strContains (hay needle : String) : Bool :=
  (hay.splitOn needle).length != 1

/-- ASCII lowercasing of one character, as `str.lower` does on the
ASCII range (the only range the compared keywords live in). -/
def pyLowerChar (c : Char) : Char :=
  if 'A' ≤ c ∧ c ≤ 'Z' then Char.ofNat (c.toNat + 32) else c

/-- `s.lower()` on Python strings, modelled for the ASCII range. -/
def pyLower (s : String) : String :=
  String.mk (s.data.map pyLowerChar)

/-- The environment-override interpretation in `get_auto_commit`:
`env_auto_commit.lower() in ("true", "1", "yes", "y")`. -/
def envTrue (v : String) : Bool :=
  ["true", "1", "yes", "y"].contains (pyLower v)

deriving instance DecidableEq for Except

/-- The project-configuration step of `get_auto_commit`:
`if "git" in project_config and "auto_commit" in project_config["git"]:
return bool(project_config["git"]["auto_commit"])`. `some r` means the
step returned or raised `r`; `none` means it fell through. A string
bound to `"git"` makes `in` a substring test and the subsequent string
indexing raise; `in` on an int or bool raises at once. -/
def projectStep (pf : ConfigFile) : Option (Except PyErr PyVal) :=
  match dictGet (load_project_config pf) "git" with
  | some (PyVal.pDict gd) =>
      match dictGet gd "auto_commit" with
      | some v => some (Except.ok (PyVal.pBool (truthy v)))
      | none => none
  | some (PyVal.pStr s) =>
      if strContains s "auto_commit" then some (Except.error PyErr.typeError)
      else none
  | some _ => some (Except.error PyErr.typeError)
  | none => none

/-- `get_auto_commit(project_path)` from `config.py`. Inputs are the
current contents of the module-level `DEFAULT_CONFIG`, the
`CODEMCP_AUTO_COMMIT` environment variable, the `project_path` argument
and the two configuration files. Returns the Python result (value or
raised exception) together with the new contents of `DEFAULT_CONFIG`.
Note the user-level branch returns the stored value raw, while the
project-level branch coerces through `bool(...)`. -/
def get_auto_commit (defaultCfg : PyDict) (env : Option String)
    (projectPath : Option String) (projectFile userFile : ConfigFile) :
    Except PyErr PyVal × PyDict :=
  match env with
  | some v => (Except.ok (PyVal.pBool (envTrue v)), defaultCfg)
  | none =>
    match (if pathTruthy projectPath then projectStep projectFile else none) with
    | some r => (r, defaultCfg)
    | none =>
      let lc := load_config defaultCfg userFile
      match dictGet lc.1 "git" with
      | some (PyVal.pDict gd) =>
          (Except.ok ((dictGet gd "auto_commit").getD (PyVal.pBool true)), lc.2)
      | some _ => (Except.error PyErr.attributeError, lc.2)
      | none => (Except.error PyErr.keyError, lc.2)

/-! ## Lemmas about the dictionary operations and the merge -/

theorem dictGet_dictSet_self (d : PyDict) (k : String) (v : PyVal) :
    dictGet (dictSet d k v) k = some v := by
  induction d with
  | nil => simp [dictSet, dictGet]
  | cons hd tl ih =>
    obtain ⟨k', v'⟩ := hd
    by_cases h : k' = k <;> simp [dictSet, dictGet, h, ih]

theorem dictGet_dictSet_ne (d : PyDict) (k' k : String) (v : PyVal)
    (h : k' ≠ k) : dictGet (dictSet d k' v) k = dictGet d k := by
  induction d with
  | nil => simp [dictSet, dictGet, h]
  | cons hd tl ih =>
    obtain ⟨k1, v1⟩ := hd
    by_cases h1 : k1 = k' <;> simp [dictSet, dictGet, h1, h, ih]

theorem dictGet_eq_none_iff (d : PyDict) (k : String) :
    dictGet d k = none ↔ k ∉ d.map Prod.fst := by
  induction d with
  | nil => simp [dictGet]
  | cons hd tl ih =>
    obtain ⟨k1, v1⟩ := hd
    by_cases h1 : k1 = k
    · subst h1
      simp [dictGet]
    · simp [dictGet, h1, ih, Ne.symm h1]

/-- Keys absent from the override keep their base binding under
`_merge_configs`. -/
theorem mergeConfigs_get_of_not_mem (ov : PyDict) (base : PyDict) (k : String)
    (h : k ∉ ov.map Prod.fst) :
    dictGet (mergeConfigs base ov) k = dictGet base k := by
  induction ov generalizing base with
  | nil => simp [mergeConfigs]
  | cons hd tl ih =>
    obtain ⟨k', v'⟩ := hd
    simp only [List.map_cons, List.mem_cons] at h
    push_neg at h
    rw [mergeConfigs, ih _ h.2, dictGet_dictSet_ne _ _ _ _ (Ne.symm h.1)]

/-- No duplicate keys, as guaranteed for tables parsed by `tomli`. -/
def noDupKeys (d : PyDict) : Prop := (d.map Prod.fst).Nodup

instance (d : PyDict) : Decidable (noDupKeys d) := by
  unfold noDupKeys
  infer_instance

/-- A key bound in a duplicate-free override ends up bound to the merge
of its base and override values. -/
theorem mergeConfigs_get_of_mem (ov : PyDict) (base : PyDict) (k : String)
    (v : PyVal) (hnd : noDupKeys ov) (h : dictGet ov k = some v) :
    dictGet (mergeConfigs base ov) k = some (mergeVal (dictGet base k) v) := by
  induction ov generalizing base with
  | nil => simp [dictGet] at h
  | cons hd tl ih =>
    obtain ⟨k', v'⟩ := hd
    unfold noDupKeys at hnd
    simp only [List.map_cons, List.nodup_cons] at hnd
    by_cases hk : k' = k
    · subst hk
      simp only [dictGet, if_pos] at h
      simp only [Option.some.injEq] at h
      subst h
      rw [mergeConfigs, mergeConfigs_get_of_not_mem _ _ _ hnd.1,
        dictGet_dictSet_self]
    · simp only [dictGet, if_neg hk] at h
      rw [mergeConfigs, ih _ hnd.2 h, dictGet_dictSet_ne _ _ _ _ hk]

/-- Merging any value over a boolean binding just replaces it. -/
theorem mergeVal_bool (b : Bool) (v : PyVal) :
    mergeVal (some (PyVal.pBool b)) v = v := by
  cases v <;> rfl

/-- The user-level layer yields no `git.auto_commit` setting: the file is
absent, unreadable/invalid, or its table (duplicate-free, as `tomli`
guarantees) lacks the key. -/
def userNoSetting : ConfigFile → Bool
  | none => true
  | some (Except.error _) => true
  | some (Except.ok u) =>
      decide (noDupKeys u) &&
      match dictGet u "git" with
      | none => true
      | some (PyVal.pDict gd) => (dictGet gd "auto_commit").isNone
      | some _ => false

/-- C5: resolveAutoCommit applies exactly this precedence, first match
wins: (1) the process-level override decides when present; (2) else a
project-level `git.auto_commit` local to the project path decides;
(3) else a user-level `git.auto_commit` decides; (4) else `true`. -/
theorem C5_resolveAutoCommit_precedence :
    (∀ (v : String) (pp : Option String) (pf uf : ConfigFile),
      get_auto_commit DEFAULT_CONFIG (some v) pp pf uf
        = (Except.ok (PyVal.pBool (envTrue v)), DEFAULT_CONFIG))
  ∧ (∀ (pp : Option String) (pf uf : ConfigFile) (gd : PyDict) (v : PyVal),
      pathTruthy pp = true →
      dictGet (load_project_config pf) "git" = some (PyVal.pDict gd) →
      dictGet gd "auto_commit" = some v →
      (get_auto_commit DEFAULT_CONFIG none pp pf uf).1
        = Except.ok (PyVal.pBool (truthy v)))
  ∧ (∀ (pp : Option String) (pf : ConfigFile) (u ugd : PyDict) (v : PyVal),
      (pathTruthy pp = false ∨ projectStep pf = none) →
      noDupKeys u → noDupKeys ugd →
      dictGet u "git" = some (PyVal.pDict ugd) →
      dictGet ugd "auto_commit" = some v →
      (get_auto_commit DEFAULT_CONFIG none pp pf (some (Except.ok u))).1
        = Except.ok v)
  ∧ (∀ (pp : Option String) (pf uf : ConfigFile),
      (pathTruthy pp = false ∨ projectStep pf = none) →
      userNoSetting uf = true →
      (get_auto_commit DEFAULT_CONFIG none pp pf uf).1
        = Except.ok (PyVal.pBool true)) := by
  refine ⟨fun v pp pf uf => rfl, ?_, ?_, ?_⟩
  · intro pp pf uf gd v hp hg ha
    simp [get_auto_commit, projectStep, hp, hg, ha]
  · intro pp pf u ugd v hfall hu hugd hg ha
    have hstep : (if pathTruthy pp = true then projectStep pf else none) = none := by
      rcases hfall with h | h
      · simp [h]
      · cases pathTruthy pp <;> simp [h]
    have hmerged :
        dictGet (mergeConfigs DEFAULT_CONFIG u) "git"
          = some (PyVal.pDict
              (mergeConfigs [("auto_commit", PyVal.pBool true)] ugd)) := by
      rw [mergeConfigs_get_of_mem u DEFAULT_CONFIG "git" _ hu hg]
      rfl
    have hac :
        dictGet (mergeConfigs [("auto_commit", PyVal.pBool true)] ugd)
            "auto_commit" = some v := by
      rw [mergeConfigs_get_of_mem ugd _ "auto_commit" _ hugd ha]
      simp [dictGet, mergeVal_bool]
    simp [get_auto_commit, hstep, load_config, hmerged, hac]
  · intro pp pf uf hfall hns
    have hstep : (if pathTruthy pp = true then projectStep pf else none) = none := by
      rcases hfall with h | h
      · simp [h]
      · cases pathTruthy pp <;> simp [h]
    match uf with
    | none => simp [get_auto_commit, hstep, load_config, DEFAULT_CONFIG, dictGet]
    | some (Except.error _) =>
        simp [get_auto_commit, hstep, load_config, DEFAULT_CONFIG, dictGet]
    | some (Except.ok u) =>
      simp only [userNoSetting, Bool.and_eq_true, decide_eq_true_eq] at hns
      obtain ⟨hu, hgit⟩ := hns
      match hg : dictGet u "git" with
      | none =>
        have hthis : dictGet (mergeConfigs DEFAULT_CONFIG u) "git"
            = some (PyVal.pDict [("auto_commit", PyVal.pBool true)]) := by
          rw [mergeConfigs_get_of_not_mem u DEFAULT_CONFIG "git"
            ((dictGet_eq_none_iff u "git").1 hg)]
          rfl
        simp [get_auto_commit, hstep, load_config, hthis, dictGet]
      | some (PyVal.pDict gd) =>
        rw [hg] at hgit
        simp only [Option.isNone_iff_eq_none] at hgit
        have hmerged :
            dictGet (mergeConfigs DEFAULT_CONFIG u) "git"
              = some (PyVal.pDict
                  (mergeConfigs [("auto_commit", PyVal.pBool true)] gd)) := by
          rw [mergeConfigs_get_of_mem u DEFAULT_CONFIG "git" _ hu hg]
          rfl
        have hac :
            dictGet (mergeConfigs [("auto_commit", PyVal.pBool true)] gd)
                "auto_commit" = some (PyVal.pBool true) := by
          rw [mergeConfigs_get_of_not_mem gd _ "auto_commit"
            ((dictGet_eq_none_iff gd "auto_commit").1 hgit)]
          rfl
        simp [get_auto_commit, hstep, load_config, hmerged, hac]
      | some (PyVal.pStr _) => rw [hg] at hgit; simp at hgit
      | some (PyVal.pInt _) => rw [hg] at hgit; simp at hgit
      | some (PyVal.pBool _) => rw [hg] at hgit; simp at hgit

/-- Witness for C5: each layer exercised at a concrete input. -/
theorem C5_resolveAutoCommit_precedence_witness :
    (get_auto_commit DEFAULT_CONFIG none (some "/p")
        (some (Except.ok [("git", PyVal.pDict [("auto_commit", PyVal.pBool false)])]))
        none).1
      = Except.ok (PyVal.pBool false)
    ∧ (get_auto_commit DEFAULT_CONFIG none none none
        (some (Except.ok [("git", PyVal.pDict [("auto_commit", PyVal.pBool false)])]))).1
      = Except.ok (PyVal.pBool false)
    ∧ (get_auto_commit DEFAULT_CONFIG none none none none).1
      = Except.ok (PyVal.pBool true) := by
  refine ⟨?_, ?_, ?_⟩
  · have h := C5_resolveAutoCommit_precedence.2.1 (some "/p")
      (some (Except.ok [("git", PyVal.pDict [("auto_commit", PyVal.pBool false)])]))
      none [("auto_commit", PyVal.pBool false)] (PyVal.pBool false)
      (by decide) (by decide) (by decide)
    simpa using h
  · exact C5_resolveAutoCommit_precedence.2.2.1 none none
      [("git", PyVal.pDict [("auto_commit", PyVal.pBool false)])]
      [("auto_commit", PyVal.pBool false)] (PyVal.pBool false)
      (Or.inl (by decide)) (by decide) (by decide) (by decide) (by decide)
  · exact C5_resolveAutoCommit_precedence.2.2.2 none none none
      (Or.inl (by decide)) (by decide)

/-- C6: when the process-level override is present, the result is `true`
iff the override lowercased is one of `"true"`, `"1"`, `"yes"`, `"y"`,
else `false` (e.g. `"no"` gives `false`), irrespective of the project
and user configuration contents, which are not even read. -/
theorem C6_env_override_keyword_interpretation (v : String) (d : PyDict)
    (pp : Option String) (pf uf : ConfigFile) :
    ((get_auto_commit d (some v) pp pf uf).1 = Except.ok (PyVal.pBool true)
      ↔ pyLower v ∈ ["true", "1", "yes", "y"])
    ∧ ((get_auto_commit d (some v) pp pf uf).1 = Except.ok (PyVal.pBool false)
      ↔ pyLower v ∉ ["true", "1", "yes", "y"])
    ∧ get_auto_commit d (some v) pp pf uf
        = (Except.ok (PyVal.pBool (envTrue v)), d)
    ∧ (get_auto_commit d (some "no") pp pf uf).1
        = Except.ok (PyVal.pBool false) := by
  refine ⟨?_, ?_, rfl, ?_⟩
  · simp [get_auto_commit, envTrue]
  · simp [get_auto_commit, envTrue]
  · have : envTrue "no" = false := by decide
    simp [get_auto_commit, this]

/-- C7: the claim says `resolveAutoCommit` leaves all process-global
state, including the module-level default configuration, unchanged, and
that configuration edits between calls are always reflected. The code
violates this: `load_config` shallow-copies `DEFAULT_CONFIG`, so merging
a user file that sets `git.auto_commit = false` mutates the dict object
shared with `DEFAULT_CONFIG`; a later call with the user file deleted
then returns `false` where the documented default is `true`. -/
theorem C7_shallow_copy_pollutes_defaults :
    (get_auto_commit DEFAULT_CONFIG none none none
        (some (Except.ok
          [("git", PyVal.pDict [("auto_commit", PyVal.pBool false)])]))).2
      ≠ DEFAULT_CONFIG
    ∧ (get_auto_commit
        (get_auto_commit DEFAULT_CONFIG none none none
          (some (Except.ok
            [("git", PyVal.pDict [("auto_commit", PyVal.pBool false)])]))).2
        none none none none).1 = Except.ok (PyVal.pBool false)
    ∧ (get_auto_commit DEFAULT_CONFIG none none none none).1
        = Except.ok (PyVal.pBool true) := by decide

/-- C9 counterexample: the claim says resolveAutoCommit never raises even
for configuration values of unexpected shape. But a syntactically valid
user file binding `git` to a string reaches `user_config["git"].get(...)`
and raises AttributeError, and a project file binding `git` to an int
makes `"auto_commit" in project_config["git"]` raise TypeError. -/
theorem C9_counterexample_nontable_git_raises :
    (get_auto_commit DEFAULT_CONFIG none none none
        (some (Except.ok [("git", PyVal.pStr "x")]))).1
      = Except.error PyErr.attributeError
    ∧ (get_auto_commit DEFAULT_CONFIG none (some "/p")
        (some (Except.ok [("git", PyVal.pInt 1)])) none).1
      = Except.error PyErr.typeError := by decide

/-- C9 amended: an unreadable or syntactically invalid configuration
file (the load raises and is caught) is treated as absent and never
fatal: resolution falls through to the next layer and yields the
default. -/
theorem C9_amended_load_errors_treated_absent (pp : Option String)
    (pf uf : ConfigFile)
    (hp : pf = none ∨ pf = some (Except.error ()))
    (hu : uf = none ∨ uf = some (Except.error ())) :
    get_auto_commit DEFAULT_CONFIG none pp pf uf
      = (Except.ok (PyVal.pBool true), DEFAULT_CONFIG) := by
  have hstep : projectStep pf = none := by
    rcases hp with rfl | rfl <;> rfl
  rcases hu with rfl | rfl <;>
    cases hpt : pathTruthy pp <;>
      simp [get_auto_commit, hpt, hstep, load_config, DEFAULT_CONFIG, dictGet]

/-- Witness for the amended C9 at concrete unreadable files. -/
theorem C9_amended_witness :
    get_auto_commit DEFAULT_CONFIG none (some "/repo")
        (some (Except.error ())) (some (Except.error ()))
      = (Except.ok (PyVal.pBool true), DEFAULT_CONFIG) :=
  C9_amended_load_errors_treated_absent (some "/repo") _ _
    (Or.inr rfl) (Or.inr rfl)

/-- C10: a project-level `git.auto_commit` value is coerced by Python
truthiness `bool(value)`, not by the override's keyword interpretation:
the string `"false"` yields `true`; `0`, `""` and `false` yield
`false`. -/
theorem C10_project_setting_uses_python_truthiness :
    (∀ (p : String) (gd : PyDict) (v : PyVal) (uf : ConfigFile),
      p ≠ "" →
      dictGet gd "auto_commit" = some v →
      (get_auto_commit DEFAULT_CONFIG none (some p)
          (some (Except.ok [("git", PyVal.pDict gd)])) uf).1
        = Except.ok (PyVal.pBool (truthy v)))
    ∧ truthy (PyVal.pStr "false") = true
    ∧ truthy (PyVal.pInt 0) = false
    ∧ truthy (PyVal.pStr "") = false
    ∧ truthy (PyVal.pBool false) = false
    ∧ envTrue "false" = false := by
  refine ⟨?_, by decide, by decide, by decide, by decide, by decide⟩
  intro p gd v uf hp ha
  have hpt : pathTruthy (some p) = true := by
    simp [pathTruthy, hp]
  simp [get_auto_commit, hpt, projectStep, load_project_config, dictGet, ha]

/-- Witness for C10: the project value `"false"` resolves to `true`. -/
theorem C10_project_setting_uses_python_truthiness_witness :
    (get_auto_commit DEFAULT_CONFIG none (some "/p")
        (some (Except.ok
          [("git", PyVal.pDict [("auto_commit", PyVal.pStr "false")])]))
        none).1
      = Except.ok (PyVal.pBool true) := by
  have h := C10_project_setting_uses_python_truthiness.1 "/p"
    [("auto_commit", PyVal.pStr "false")] (PyVal.pStr "false") none
    (by decide) (by decide)
  simpa using h

/-! ## TrailerCodec

Modelled from the spec: the implementation (`parse_git_commit_message`,
`append_metadata_to_message` in `codemcp/git.py`) is not part of the
sources here, only its tests are. The model follows §3 and §4.1 of the
specification: a trailer line is `Key: Value` with key matching
`[A-Za-z][A-Za-z0-9-]*`; `parse` collects the maximal contiguous run of
trailer-syntax lines at the end of the message, folding
leading-whitespace continuation lines into the previous trailer's value
joined by a single space, and returns everything before the block minus
one separating blank line as the body; `serialize` renders
`body + one blank line + "Key: Value" lines`; `appendOrUpdate` replaces
existing keys in place and appends new ones in the order supplied.
Messages are processed as lists of characters.
-/

/-- Split characters into lines at `'\n'` (like `str.split("\n")`):
always returns at least one (possibly empty) line. -/
def splitLines : List Char → List (List Char)
  | [] => [[]]
  | c :: rest =>
    if c = '\n' then [] :: splitLines rest
    else
      match splitLines rest with
      | [] => [[c]]
      | l :: ls => (c :: l) :: ls

/-- Join lines with `'\n'` (like `"\n".join(lines)`). -/
def joinLines : List (List Char) → List Char
  | [] => []
  | [l] => l
  | l :: ls => l ++ '\n' :: joinLines ls

/-- A character allowed after the first in a trailer key:
`[A-Za-z0-9-]`. -/
def isKeyChar (c : Char) : Bool := c.isAlpha || c.isDigit || c == '-'

/-- A trailer key matches `[A-Za-z][A-Za-z0-9-]*`. -/
def validKey : List Char → Bool
  | [] => false
  | c :: rest => c.isAlpha && rest.all isKeyChar

/-- Split a line at its first `':'`. -/
def splitColon : List Char → Option (List Char × List Char)
  | [] => none
  | c :: rest =>
    if c = ':' then some ([], rest)
    else
      match splitColon rest with
      | some (k, v) => some (c :: k, v)
      | none => none

/-- Parse one trailer-syntax line `Key: Value` into `(key, value)`. -/
def lineTrailer (l : List Char) : Option (List Char × List Char) :=
  match splitColon l with
  | some (k, ' ' :: v) => if validKey k then some (k, v) else none
  | _ => none

/-- Whether a line has trailer syntax. -/
def isTrailerLine (l : List Char) : Bool := (lineTrailer l).isSome

/-- A continuation line starts with whitespace. -/
def isContinuationLine : List Char → Bool
  | c :: _ => c = ' ' || c = '\t'
  | [] => false

/-- A line that may belong to the trailer block. -/
def isBlockLine (l : List Char) : Bool :=
  isTrailerLine l || isContinuationLine l

/-- The maximal contiguous run of trailer-syntax lines (with their
continuation lines) at the end of the message; leading continuation
lines with no trailer line above them are excluded. -/
def trailerBlock (lines : List (List Char)) : List (List Char) :=
  ((lines.reverse.takeWhile isBlockLine).reverse).dropWhile isContinuationLine

/-- Strip leading whitespace of a continuation line. -/
def stripWs : List Char → List Char :=
  List.dropWhile (fun c => c = ' ' || c = '\t')

/-- Turn the block's lines into raw `(key, value)` pairs, folding each
continuation line into the most recent trailer's value joined by a
single space. The accumulator holds pairs in reverse order. -/
def foldBlockLines (acc : List (List Char × List Char)) :
    List (List Char) → List (List Char × List Char)
  | [] => acc.reverse
  | l :: rest =>
    match lineTrailer l with
    | some (k, v) => foldBlockLines ((k, v) :: acc) rest
    | none =>
      match acc with
      | (k, v) :: acc' =>
          if isContinuationLine l then
            foldBlockLines ((k, v ++ ' ' :: stripWs l) :: acc') rest
          else foldBlockLines acc rest
      | [] => foldBlockLines acc rest

/-- Ordered-mapping insertion with Python-dict semantics: an existing
key is updated in place, a new key is appended. -/
def insertTrailer (m : List (List Char × List Char)) (k v : List Char) :
    List (List Char × List Char) :=
  if m.any (fun p => p.1 == k) then
    m.map (fun p => if p.1 == k then (k, v) else p)
  else m ++ [(k, v)]

/-- Build the ordered trailer mapping from raw pairs. -/
def toTrailerDict (pairs : List (List Char × List Char)) :
    List (List Char × List Char) :=
  pairs.foldl (fun m p => insertTrailer m p.1 p.2) []

/-- `parse(message) -> (body, trailers)`, §4.1 of the spec: the maximal
trailing run of trailer-syntax lines is the block; everything before it,
minus one separating blank line, is the body; a message with no trailing
trailer-syntax lines is all body. -/
def parseCommitMessage (msg : List Char) :
    List Char × List (List Char × List Char) :=
  let lines := splitLines msg
  let block := trailerBlock lines
  if block.isEmpty then (msg, [])
  else
    let pre := lines.take (lines.length - block.length)
    let body :=
      match pre.getLast? with
      | some [] => pre.dropLast
      | _ => pre
    (joinLines body, toTrailerDict (foldBlockLines [] block))

/-- Render one trailer as `Key: Value`. -/
def renderTrailer (p : List Char × List Char) : List Char :=
  p.1 ++ ':' :: ' ' :: p.2

/-- `serialize(body, trailers)`, §4.1 of the spec: body, one blank line,
then each trailer as `Key: Value` in mapping order (just the body when
there are no trailers). -/
def serializeCommitMessage (body : List Char)
    (trailers : List (List Char × List Char)) : List Char :=
  if trailers.isEmpty then body
  else body ++ '\n' :: '\n' :: joinLines (trailers.map renderTrailer)

/-- `appendOrUpdate(message, updates)`, §4.1 of the spec: parse, update
existing keys in place, append new keys in the order supplied,
re-serialize. -/
def appendMetadata (msg : List Char)
    (updates : List (List Char × List Char)) : List Char :=
  serializeCommitMessage (parseCommitMessage msg).1
    (updates.foldl (fun m p => insertTrailer m p.1 p.2)
      (parseCommitMessage msg).2)

/-! ### Lines: splitting and joining -/

theorem splitLines_ne_nil (cs : List Char) : splitLines cs ≠ [] := by
  cases cs with
  | nil => simp [splitLines]
  | cons c rest =>
    by_cases h : c = '\n'
    · simp [splitLines, h]
    · simp only [splitLines, if_neg h]
      cases splitLines rest <;> simp

theorem mem_splitLines_no_newline (cs : List Char) :
    ∀ l ∈ splitLines cs, '\n' ∉ l := by
  induction cs with
  | nil => simp [splitLines]
  | cons c rest ih =>
    by_cases h : c = '\n'
    · simp only [splitLines, if_pos h]
      intro l hl
      rcases List.mem_cons.1 hl with rfl | hl
      · simp
      · exact ih l hl
    · simp only [splitLines, if_neg h]
      cases hs : splitLines rest with
      | nil => exact absurd hs (splitLines_ne_nil rest)
      | cons l0 ls =>
        intro l hl
        rcases List.mem_cons.1 hl with rfl | hl
        · intro hmem
          rcases List.mem_cons.1 hmem with rfl | hmem
          · exact h rfl
          · exact ih l0 (hs ▸ List.mem_cons_self l0 ls) hmem
        · exact ih l (hs ▸ List.mem_cons_of_mem l0 hl)

theorem splitLines_of_no_newline (l : List Char) (h : '\n' ∉ l) :
    splitLines l = [l] := by
  induction l with
  | nil => rfl
  | cons c rest ih =>
    simp only [List.mem_cons, not_or] at h
    simp [splitLines, Ne.symm h.1, ih h.2]

theorem splitLines_append (cs ds : List Char) :
    splitLines (cs ++ '\n' :: ds) = splitLines cs ++ splitLines ds := by
  induction cs with
  | nil => simp [splitLines]
  | cons c rest ih =>
    by_cases h : c = '\n'
    · simp [splitLines, h, ih]
    · cases hs : splitLines rest with
      | nil => exact absurd hs (splitLines_ne_nil rest)
      | cons l0 ls => simp [splitLines, if_neg h, ih, hs]

theorem joinLines_cons (l : List Char) (ls : List (List Char))
    (h : ls ≠ []) : joinLines (l :: ls) = l ++ '\n' :: joinLines ls := by
  cases ls with
  | nil => exact absurd rfl h
  | cons l' ls' => rfl

theorem splitLines_joinLines (L : List (List Char)) (hne : L ≠ [])
    (hnl : ∀ l ∈ L, '\n' ∉ l) : splitLines (joinLines L) = L := by
  induction L with
  | nil => exact absurd rfl hne
  | cons l ls ih =>
    cases ls with
    | nil =>
      exact splitLines_of_no_newline l (hnl l (List.mem_cons_self l []))
    | cons l' ls' =>
      rw [joinLines_cons l (l' :: ls') (by simp),
        splitLines_append l (joinLines (l' :: ls')),
        splitLines_of_no_newline l (hnl l (List.mem_cons_self l _)),
        ih (by simp) (fun x hx => hnl x (List.mem_cons_of_mem l hx))]
      rfl

theorem joinLines_splitLines (cs : List Char) :
    joinLines (splitLines cs) = cs := by
  induction cs with
  | nil => rfl
  | cons c rest ih =>
    by_cases h : c = '\n'
    · rw [show splitLines (c :: rest) = [] :: splitLines rest by
        simp [splitLines, h]]
      rw [joinLines_cons [] (splitLines rest) (splitLines_ne_nil rest), ih, h]
      rfl
    · simp only [splitLines, if_neg h]
      cases hs : splitLines rest with
      | nil => exact absurd hs (splitLines_ne_nil rest)
      | cons l0 ls =>
        rw [hs] at ih
        cases ls with
        | nil =>
          simp only [joinLines] at ih ⊢
          rw [ih]
        | cons l1 ls' =>
          rw [joinLines_cons (c :: l0) (l1 :: ls') (by simp)]
          rw [joinLines_cons l0 (l1 :: ls') (by simp)] at ih
          simp [ih]

theorem joinLines_append (xs ys : List (List Char)) (hx : xs ≠ [])
    (hy : ys ≠ []) :
    joinLines (xs ++ ys) = joinLines xs ++ '\n' :: joinLines ys := by
  induction xs with
  | nil => exact absurd rfl hx
  | cons l ls ih =>
    cases ls with
    | nil =>
      rw [List.singleton_append, joinLines_cons l ys hy]
      rfl
    | cons l' ls' =>
      rw [List.cons_append, joinLines_cons l ((l' :: ls') ++ ys) (by simp),
        ih (by simp), joinLines_cons l (l' :: ls') (by simp)]
      simp

/-! ### Trailer-line structure -/

theorem splitColon_eq (l k v : List Char) (h : splitColon l = some (k, v)) :
    l = k ++ ':' :: v ∧ ':' ∉ k := by
  induction l generalizing k with
  | nil => simp [splitColon] at h
  | cons c rest ih =>
    by_cases hc : c = ':'
    · simp only [splitColon, if_pos hc, Option.some.injEq, Prod.mk.injEq] at h
      obtain ⟨rfl, rfl⟩ := h
      simp [hc]
    · simp only [splitColon, if_neg hc] at h
      cases hs : splitColon rest with
      | none => rw [hs] at h; simp at h
      | some p =>
        obtain ⟨k', v'⟩ := p
        rw [hs] at h
        simp only [Option.some.injEq, Prod.mk.injEq] at h
        obtain ⟨hk, hv⟩ := h
        subst hv
        subst hk
        obtain ⟨he, hm⟩ := ih k' hs
        refine ⟨by rw [he]; rfl, ?_⟩
        intro hmem
        rcases List.mem_cons.1 hmem with h1 | h1
        · exact hc h1.symm
        · exact hm h1

theorem splitColon_append (k rest : List Char) (h : ':' ∉ k) :
    splitColon (k ++ ':' :: rest) = some (k, rest) := by
  induction k with
  | nil => simp [splitColon]
  | cons c k' ih =>
    simp only [List.mem_cons, not_or] at h
    simp [splitColon, Ne.symm h.1, ih h.2]

theorem validKey_no_colon (k : List Char) (h : validKey k = true) :
    ':' ∉ k := by
  cases k with
  | nil => simp
  | cons c rest =>
    simp only [validKey, Bool.and_eq_true, List.all_eq_true] at h
    intro hmem
    rcases List.mem_cons.1 hmem with rfl | hmem
    · simp [Char.isAlpha, Char.isUpper, Char.isLower] at h
    · have := h.2 _ hmem
      simp [isKeyChar, Char.isAlpha, Char.isUpper, Char.isLower,
        Char.isDigit] at this

theorem validKey_no_newline (k : List Char) (h : validKey k = true) :
    '\n' ∉ k := by
  cases k with
  | nil => simp
  | cons c rest =>
    simp only [validKey, Bool.and_eq_true, List.all_eq_true] at h
    intro hmem
    rcases List.mem_cons.1 hmem with rfl | hmem
    · simp [Char.isAlpha, Char.isUpper, Char.isLower] at h
    · have := h.2 _ hmem
      simp [isKeyChar, Char.isAlpha, Char.isUpper, Char.isLower,
        Char.isDigit] at this

theorem lineTrailer_eq (l k v : List Char)
    (h : lineTrailer l = some (k, v)) :
    l = k ++ ':' :: ' ' :: v ∧ validKey k = true := by
  unfold lineTrailer at h
  split at h
  · rename_i k' v' heq
    split at h
    · rename_i hk
      simp only [Option.some.injEq, Prod.mk.injEq] at h
      obtain ⟨rfl, rfl⟩ := h
      exact ⟨(splitColon_eq _ _ _ heq).1, hk⟩
    · simp at h
  · simp at h

theorem renderTrailer_lineTrailer (l : List Char)
    (p : List Char × List Char) (h : lineTrailer l = some p) :
    renderTrailer p = l := by
  obtain ⟨k, v⟩ := p
  obtain ⟨he, _⟩ := lineTrailer_eq l k v h
  rw [he]
  rfl

theorem lineTrailer_renderTrailer (k v : List Char)
    (h : validKey k = true) :
    lineTrailer (renderTrailer (k, v)) = some (k, v) := by
  unfold lineTrailer renderTrailer
  rw [splitColon_append k (' ' :: v) (validKey_no_colon k h)]
  simp [h]

theorem isTrailerLine_not_continuation (l : List Char)
    (h : isTrailerLine l = true) : isContinuationLine l = false := by
  unfold isTrailerLine at h
  cases hl : lineTrailer l with
  | none => rw [hl] at h; simp at h
  | some p =>
    obtain ⟨k, v⟩ := p
    obtain ⟨he, hk⟩ := lineTrailer_eq l k v hl
    subst he
    cases k with
    | nil => simp [validKey] at hk
    | cons c rest =>
      simp only [validKey, Bool.and_eq_true] at hk
      have hc := hk.1
      have h1 : c ≠ ' ' := fun hh => by
        rw [hh] at hc
        exact absurd hc (by decide)
      have h2 : c ≠ '\t' := fun hh => by
        rw [hh] at hc
        exact absurd hc (by decide)
      simp [isContinuationLine, h1, h2]

/-! ### Block extraction -/

theorem takeWhile_append_all {α : Type} (p : α → Bool) (xs : List α) (y : α)
    (ys : List α) (hx : ∀ x ∈ xs, p x = true) (hy : p y = false) :
    (xs ++ y :: ys).takeWhile p = xs := by
  induction xs with
  | nil => simp [List.takeWhile, hy]
  | cons a xs' ih =>
    have ha := hx a (List.mem_cons_self a xs')
    simp only [List.cons_append, List.takeWhile_cons, ha, if_true]
    rw [ih (fun x hxm => hx x (List.mem_cons_of_mem a hxm))]

theorem dropWhile_all {α : Type} (p : α → Bool) (xs : List α)
    (hx : ∀ x ∈ xs, p x = true) : xs.dropWhile p = [] := by
  induction xs with
  | nil => rfl
  | cons a xs' ih =>
    have ha := hx a (List.mem_cons_self a xs')
    simp only [List.dropWhile_cons, ha, if_true]
    exact ih (fun x hxm => hx x (List.mem_cons_of_mem a hxm))

theorem mem_takeWhile {α : Type} (p : α → Bool) (l : List α) :
    ∀ x ∈ l.takeWhile p, x ∈ l ∧ p x = true := by
  induction l with
  | nil => simp
  | cons a l' ih =>
    by_cases ha : p a = true
    · simp only [List.takeWhile_cons, ha, if_true]
      intro x hx
      rcases List.mem_cons.1 hx with rfl | hx
      · exact ⟨List.mem_cons_self x l', ha⟩
      · obtain ⟨h1, h2⟩ := ih x hx
        exact ⟨List.mem_cons_of_mem a h1, h2⟩
    · simp only [List.takeWhile_cons, ha]
      simp

theorem isBlockLine_nil : isBlockLine [] = false := by decide

/-- The block of a message whose lines are some prefix, a blank line,
then a nonempty run of trailer-syntax lines, is exactly that run. -/
theorem trailerBlock_decomp (pre block : List (List Char))
    (hblock : block ≠ [])
    (htr : ∀ l ∈ block, isTrailerLine l = true) :
    trailerBlock (pre ++ [] :: block) = block := by
  unfold trailerBlock
  rw [show (pre ++ [] :: block).reverse
      = block.reverse ++ [] :: pre.reverse by simp]
  rw [takeWhile_append_all isBlockLine block.reverse [] pre.reverse
    (fun x hx => by
      have := htr x (List.mem_reverse.1 hx)
      simp [isBlockLine, this]) isBlockLine_nil]
  rw [List.reverse_reverse]
  cases block with
  | nil => exact absurd rfl hblock
  | cons b0 rest =>
    have hb0 := isTrailerLine_not_continuation b0
      (htr b0 (List.mem_cons_self b0 rest))
    simp [List.dropWhile_cons, hb0]

/-- A message none of whose lines has trailer syntax has an empty
block. -/
theorem trailerBlock_eq_nil (L : List (List Char))
    (h : ∀ l ∈ L, isTrailerLine l = false) : trailerBlock L = [] := by
  unfold trailerBlock
  apply dropWhile_all
  intro x hx
  obtain ⟨hmem, hp⟩ := mem_takeWhile isBlockLine L.reverse x
    (List.mem_reverse.1 hx)
  have hnt := h x (List.mem_reverse.1 hmem)
  simpa [isBlockLine, hnt] using hp

/-- On a block of pure trailer-syntax lines the folding step produces
one raw pair per line. -/
theorem foldBlockLines_all_trailer (block : List (List Char))
    (htr : ∀ l ∈ block, isTrailerLine l = true)
    (acc : List (List Char × List Char)) :
    foldBlockLines acc block = acc.reverse ++ block.filterMap lineTrailer := by
  induction block generalizing acc with
  | nil => simp [foldBlockLines]
  | cons l rest ih =>
    have hl := htr l (List.mem_cons_self l rest)
    unfold isTrailerLine at hl
    cases hlt : lineTrailer l with
    | none => rw [hlt] at hl; simp at hl
    | some p =>
      obtain ⟨k, v⟩ := p
      simp only [foldBlockLines, hlt]
      rw [ih (fun x hx => htr x (List.mem_cons_of_mem l hx))]
      simp [List.filterMap_cons, hlt]

/-! ### The ordered trailer mapping -/

theorem any_beq_iff_mem_keys (t : List (List Char × List Char))
    (k : List Char) :
    t.any (fun p => p.1 == k) = true ↔ k ∈ t.map Prod.fst := by
  simp only [List.any_eq_true, List.mem_map, beq_iff_eq]

theorem insertTrailer_of_not_mem (t : List (List Char × List Char))
    (k v : List Char) (h : k ∉ t.map Prod.fst) :
    insertTrailer t k v = t ++ [(k, v)] := by
  unfold insertTrailer
  rw [if_neg]
  intro hc
  exact h ((any_beq_iff_mem_keys t k).1 hc)

theorem foldl_insertTrailer_of_nodup
    (pairs acc : List (List Char × List Char))
    (h : ((acc ++ pairs).map Prod.fst).Nodup) :
    pairs.foldl (fun m p => insertTrailer m p.1 p.2) acc = acc ++ pairs := by
  induction pairs generalizing acc with
  | nil => simp
  | cons p rest ih =>
    obtain ⟨k, v⟩ := p
    have hk : k ∉ acc.map Prod.fst := by
      simp only [List.map_append, List.nodup_append] at h
      intro hc
      exact h.2.2 hc (by simp)
    simp only [List.foldl_cons]
    rw [insertTrailer_of_not_mem acc k v hk]
    rw [ih (acc ++ [(k, v)]) (by simpa using h)]
    simp

theorem toTrailerDict_of_nodup (pairs : List (List Char × List Char))
    (h : (pairs.map Prod.fst).Nodup) : toTrailerDict pairs = pairs := by
  unfold toTrailerDict
  rw [foldl_insertTrailer_of_nodup pairs [] (by simpa using h)]
  simp

theorem map_render_filterMap (block : List (List Char))
    (htr : ∀ l ∈ block, isTrailerLine l = true) :
    (block.filterMap lineTrailer).map renderTrailer = block := by
  induction block with
  | nil => simp
  | cons l rest ih =>
    have hl := htr l (List.mem_cons_self l rest)
    unfold isTrailerLine at hl
    cases hlt : lineTrailer l with
    | none => rw [hlt] at hl; simp at hl
    | some p =>
      simp only [List.filterMap_cons, hlt, List.map_cons]
      rw [renderTrailer_lineTrailer l p hlt,
        ih (fun x hx => htr x (List.mem_cons_of_mem l hx))]

theorem filterMap_lineTrailer_ne_nil (block : List (List Char))
    (hblock : block ≠ [])
    (htr : ∀ l ∈ block, isTrailerLine l = true) :
    block.filterMap lineTrailer ≠ [] := by
  intro h
  have := map_render_filterMap block htr
  rw [h] at this
  exact hblock this.symm

/-! ### Parsing a decomposed message -/

/-- Parsing a message made of body lines, one blank separator and a
nonempty run of trailer-syntax lines recovers exactly the body and the
mapping built from those lines. -/
theorem parseCommitMessage_decomp (bodyLines block : List (List Char))
    (hblock : block ≠ [])
    (hnl : ∀ l ∈ bodyLines, '\n' ∉ l)
    (hnlb : ∀ l ∈ block, '\n' ∉ l)
    (htr : ∀ l ∈ block, isTrailerLine l = true) :
    parseCommitMessage (joinLines (bodyLines ++ [] :: block))
      = (joinLines bodyLines, toTrailerDict (block.filterMap lineTrailer)) := by
  have hlines : splitLines (joinLines (bodyLines ++ [] :: block))
      = bodyLines ++ [] :: block := by
    apply splitLines_joinLines
    · simp
    · intro l hl
      rcases List.mem_append.1 hl with h1 | h1
      · exact hnl l h1
      · rcases List.mem_cons.1 h1 with rfl | h1
        · simp
        · exact hnlb l h1
  have hblk : trailerBlock (bodyLines ++ [] :: block) = block :=
    trailerBlock_decomp bodyLines block hblock htr
  simp only [parseCommitMessage]
  rw [hlines, hblk]
  rw [if_neg (by simpa using hblock)]
  have hpre : (bodyLines ++ [] :: block).take
      ((bodyLines ++ [] :: block).length - block.length)
      = bodyLines ++ [[]] := by
    have harr : (bodyLines ++ [] :: block).length - block.length
        = (bodyLines ++ [[]]).length := by
      simp
      omega
    rw [harr, show bodyLines ++ [] :: block = (bodyLines ++ [[]]) ++ block by
      simp]
    exact List.take_left (bodyLines ++ [[]]) block
  rw [hpre]
  have hlast : (bodyLines ++ [[]]).getLast? = some [] := by simp
  rw [hlast, foldBlockLines_all_trailer block htr []]
  simp

/-- C2, corrected: as stated the round trip fails. (i) A trailer run not
preceded by a blank line: serializing re-inserts the separator, so
`"body\nK: v"` comes back as `"body\n\nK: v"`. (ii) Duplicate keys in
the block collapse in the mapping: `"x\n\nK: a\nK: b"` comes back as
`"x\n\nK: b"`. -/
theorem C2_roundtrip_counterexample :
    isTrailerLine ("K: v").data = true
    ∧ serializeCommitMessage (parseCommitMessage ("body\nK: v").data).1
        (parseCommitMessage ("body\nK: v").data).2 ≠ ("body\nK: v").data
    ∧ isTrailerLine ("K: a").data = true
    ∧ isTrailerLine ("K: b").data = true
    ∧ serializeCommitMessage (parseCommitMessage ("x\n\nK: a\nK: b").data).1
        (parseCommitMessage ("x\n\nK: a\nK: b").data).2
      ≠ ("x\n\nK: a\nK: b").data := by decide

/-- C2, amended: for any message of the form nonempty body, one blank
separator line, then a nonempty contiguous run of trailer-syntax lines
with pairwise distinct keys, `serialize (parse m) = m`. -/
theorem C2_serialize_parse_roundtrip (bodyLines block : List (List Char))
    (hbody : bodyLines ≠ []) (hblock : block ≠ [])
    (hnl : ∀ l ∈ bodyLines, '\n' ∉ l)
    (hnlb : ∀ l ∈ block, '\n' ∉ l)
    (htr : ∀ l ∈ block, isTrailerLine l = true)
    (hkeys : ((block.filterMap lineTrailer).map Prod.fst).Nodup) :
    serializeCommitMessage
        (parseCommitMessage (joinLines (bodyLines ++ [] :: block))).1
        (parseCommitMessage (joinLines (bodyLines ++ [] :: block))).2
      = joinLines (bodyLines ++ [] :: block) := by
  rw [parseCommitMessage_decomp bodyLines block hblock hnl hnlb htr]
  simp only
  rw [toTrailerDict_of_nodup _ hkeys]
  unfold serializeCommitMessage
  rw [if_neg (by simpa using filterMap_lineTrailer_ne_nil block hblock htr)]
  rw [map_render_filterMap block htr]
  rw [joinLines_append bodyLines ([] :: block) hbody (by simp)]
  rw [joinLines_cons [] block hblock]
  simp

/-- Witness for the amended C2 at a concrete message. -/
theorem C2_serialize_parse_roundtrip_witness :
    serializeCommitMessage
        (parseCommitMessage (joinLines
          [("body").data, [], ("K: v").data, ("L: w").data])).1
        (parseCommitMessage (joinLines
          [("body").data, [], ("K: v").data, ("L: w").data])).2
      = joinLines [("body").data, [], ("K: v").data, ("L: w").data] := by
  have h := C2_serialize_parse_roundtrip [("body").data]
    [("K: v").data, ("L: w").data]
    (by decide) (by decide) (by decide) (by decide) (by decide) (by decide)
  simpa using h

/-- A generalization of the decomposition: parsing any message whose
line split is `pre ++ [blank] ++ block` with `block` a nonempty run of
trailer-syntax lines. -/
theorem parseCommitMessage_of_lines (m : List Char)
    (pre block : List (List Char))
    (hsplit : splitLines m = pre ++ [] :: block) (hblock : block ≠ [])
    (htr : ∀ l ∈ block, isTrailerLine l = true) :
    parseCommitMessage m
      = (joinLines pre, toTrailerDict (foldBlockLines [] block)) := by
  have hblk : trailerBlock (pre ++ [] :: block) = block :=
    trailerBlock_decomp pre block hblock htr
  simp only [parseCommitMessage]
  rw [hsplit, hblk]
  rw [if_neg (by simpa using hblock)]
  have hpre : (pre ++ [] :: block).take
      ((pre ++ [] :: block).length - block.length) = pre ++ [[]] := by
    have harr : (pre ++ [] :: block).length - block.length
        = (pre ++ [[]]).length := by
      simp
      omega
    rw [harr, show pre ++ [] :: block = (pre ++ [[]]) ++ block by simp]
    exact List.take_left (pre ++ [[]]) block
  rw [hpre]
  have hlast : (pre ++ [[]]).getLast? = some [] := by simp
  rw [hlast]
  simp

/-- C4: parse collects the maximal trailing run of trailer-syntax lines
as the block and returns everything before it minus one separating
blank line as the body; with no trailing trailer-syntax lines the
message is all body; the spec's example parses to the stated body and
two-trailer mapping. -/
theorem C4_parse_collects_trailing_block :
    (∀ m : List Char, trailerBlock (splitLines m) = [] →
      parseCommitMessage m = (m, []))
    ∧ (∀ m : List Char, (∀ l ∈ splitLines m, isTrailerLine l = false) →
      parseCommitMessage m = (m, []))
    ∧ (∀ bodyLines block : List (List Char), block ≠ [] →
      (∀ l ∈ bodyLines, '\n' ∉ l) → (∀ l ∈ block, '\n' ∉ l) →
      (∀ l ∈ block, isTrailerLine l = true) →
      parseCommitMessage (joinLines (bodyLines ++ [] :: block))
        = (joinLines bodyLines, toTrailerDict (block.filterMap lineTrailer)))
    ∧ parseCommitMessage
        ("feat: X\n\nBody\n\nSigned-off-by: A <a@x.com>\ncodemcp-id: abc-1").data
      = (("feat: X\n\nBody").data,
         [(("Signed-off-by").data, ("A <a@x.com>").data),
          (("codemcp-id").data, ("abc-1").data)]) := by
  refine ⟨?_, ?_, ?_, by decide⟩
  · intro m h
    simp [parseCommitMessage, h]
  · intro m h
    simp [parseCommitMessage, trailerBlock_eq_nil _ h]
  · intro bodyLines block hb hnl hnlb htr
    exact parseCommitMessage_decomp bodyLines block hb hnl hnlb htr

/-- Witness for C4 at concrete messages. -/
theorem C4_parse_collects_trailing_block_witness :
    parseCommitMessage ("hello\nworld").data = (("hello\nworld").data, [])
    ∧ parseCommitMessage (joinLines [("a").data, [], ("K: v").data])
      = (("a").data,
         toTrailerDict ([("K: v").data].filterMap lineTrailer)) := by
  constructor
  · exact C4_parse_collects_trailing_block.2.1 ("hello\nworld").data (by decide)
  · have h := C4_parse_collects_trailing_block.2.2.1 [("a").data]
      [("K: v").data] (by decide) (by decide) (by decide) (by decide)
    simpa using h

/-! ### Lookup, last-value and extensionality for the ordered mapping -/

/-- First-binding lookup in the ordered trailer mapping. -/
def lookupT : List (List Char × List Char) → List Char → Option (List Char)
  | [], _ => none
  | p :: rest, k => if p.1 = k then some p.2 else lookupT rest k

/-- The value of the last entry with key `k` in an update list. -/
def lastVal : List (List Char × List Char) → List Char → Option (List Char)
  | [], _ => none
  | p :: rest, k =>
    match lastVal rest k with
    | some v => some v
    | none => if p.1 = k then some p.2 else none

theorem lookupT_eq_none_iff (t : List (List Char × List Char))
    (k : List Char) : lookupT t k = none ↔ k ∉ t.map Prod.fst := by
  induction t with
  | nil => simp [lookupT]
  | cons p rest ih =>
    by_cases hp : p.1 = k
    · subst hp
      simp [lookupT]
    · simp [lookupT, hp, ih, Ne.symm hp]

theorem lookupT_append_right (t t2 : List (List Char × List Char))
    (k : List Char) (h : lookupT t k = none) :
    lookupT (t ++ t2) k = lookupT t2 k := by
  induction t with
  | nil => simp
  | cons p rest ih =>
    by_cases hp : p.1 = k
    · simp [lookupT, hp] at h
    · simp only [lookupT, hp, if_false] at h
      simp [lookupT, hp, ih h]

theorem lookupT_map_update (t : List (List Char × List Char))
    (k v : List Char) (hmem : k ∈ t.map Prod.fst) :
    lookupT (t.map (fun p => if p.1 == k then (k, v) else p)) k = some v := by
  induction t with
  | nil => simp at hmem
  | cons p rest ih =>
    by_cases hp : p.1 = k
    · simp [lookupT, hp]
    · have : (p.1 == k) = false := by simp [hp]
      simp only [List.map_cons, this, Bool.false_eq_true, if_false]
      rw [show lookupT (p :: rest.map (fun p => if p.1 == k then (k, v) else p)) k
          = lookupT (rest.map (fun p => if p.1 == k then (k, v) else p)) k by
        simp [lookupT, hp]]
      apply ih
      simp only [List.map_cons, List.mem_cons] at hmem
      rcases hmem with h1 | h1
      · exact absurd h1.symm hp
      · exact h1

theorem lookupT_map_update_ne (t : List (List Char × List Char))
    (k' v k : List Char) (hk : k' ≠ k) :
    lookupT (t.map (fun p => if p.1 == k' then (k', v) else p)) k
      = lookupT t k := by
  induction t with
  | nil => simp [lookupT]
  | cons p rest ih =>
    by_cases hp : p.1 = k'
    · have hb : (p.1 == k') = true := by simp [hp]
      simp only [List.map_cons, hb, if_true]
      rw [show lookupT ((k', v) :: rest.map
            (fun p => if p.1 == k' then (k', v) else p)) k
          = lookupT (rest.map (fun p => if p.1 == k' then (k', v) else p)) k by
        simp [lookupT, hk]]
      rw [ih, show lookupT (p :: rest) k = lookupT rest k by
        simp [lookupT, hp ▸ hk]]
    · have hb : (p.1 == k') = false := by simp [hp]
      simp only [List.map_cons, hb, Bool.false_eq_true, if_false]
      by_cases hpk : p.1 = k
      · simp [lookupT, hpk]
      · simp only [lookupT, hpk, if_false]
        exact ih

theorem insertTrailer_lookup_self (t : List (List Char × List Char))
    (k v : List Char) : lookupT (insertTrailer t k v) k = some v := by
  unfold insertTrailer
  by_cases h : t.any (fun p => p.1 == k) = true
  · rw [if_pos h]
    exact lookupT_map_update t k v ((any_beq_iff_mem_keys t k).1 h)
  · rw [if_neg h]
    have hnm : k ∉ t.map Prod.fst := fun hc =>
      h ((any_beq_iff_mem_keys t k).2 hc)
    rw [lookupT_append_right t [(k, v)] k ((lookupT_eq_none_iff t k).2 hnm)]
    simp [lookupT]

theorem insertTrailer_lookup_ne (t : List (List Char × List Char))
    (k' v k : List Char) (hk : k' ≠ k) :
    lookupT (insertTrailer t k' v) k = lookupT t k := by
  unfold insertTrailer
  by_cases h : t.any (fun p => p.1 == k') = true
  · rw [if_pos h]
    exact lookupT_map_update_ne t k' v k hk
  · rw [if_neg h]
    by_cases hin : lookupT t k = none
    · rw [lookupT_append_right t [(k', v)] k hin, hin]
      simp [lookupT, hk]
    · induction t with
      | nil => simp [lookupT] at hin
      | cons p rest ih =>
        by_cases hp : p.1 = k
        · simp [lookupT, hp]
        · simp only [lookupT, hp, if_false] at hin ⊢
          exact ih (by
            intro hc
            apply h
            simp only [List.any_cons, Bool.or_eq_true] at hc ⊢
            exact Or.inr hc) hin

theorem foldl_insertTrailer_lookup (U t : List (List Char × List Char))
    (k : List Char) :
    lookupT (U.foldl (fun m p => insertTrailer m p.1 p.2) t) k
      = match lastVal U k with
        | some v => some v
        | none => lookupT t k := by
  induction U generalizing t with
  | nil => simp [lastVal]
  | cons q rest ih =>
    simp only [List.foldl_cons, ih, lastVal]
    cases lastVal rest k with
    | some v => simp
    | none =>
      by_cases hq : q.1 = k
      · subst hq
        simp [insertTrailer_lookup_self]
      · simp [hq, insertTrailer_lookup_ne t q.1 q.2 k hq]

/-! ### Keys of the ordered mapping -/

theorem map_fst_map_update (t : List (List Char × List Char))
    (k v : List Char) :
    (t.map (fun p => if p.1 == k then (k, v) else p)).map Prod.fst
      = t.map Prod.fst := by
  induction t with
  | nil => rfl
  | cons p rest ih =>
    by_cases hp : p.1 = k
    · have hb : (p.1 == k) = true := by simp [hp]
      simp only [List.map_cons, hb, if_true, ih]
      simp [hp]
    · have hb : (p.1 == k) = false := by simp [hp]
      simp only [List.map_cons, hb, Bool.false_eq_true, if_false, ih]

theorem insertTrailer_keys (t : List (List Char × List Char))
    (k v : List Char) :
    (insertTrailer t k v).map Prod.fst
      = if k ∈ t.map Prod.fst then t.map Prod.fst
        else t.map Prod.fst ++ [k] := by
  unfold insertTrailer
  by_cases h : t.any (fun p => p.1 == k) = true
  · rw [if_pos h, if_pos ((any_beq_iff_mem_keys t k).1 h), map_fst_map_update]
  · rw [if_neg h, if_neg (fun hc => h ((any_beq_iff_mem_keys t k).2 hc))]
    simp

/-- The keys newly appended when folding an update list into an
existing mapping, in the order the updates supply them. -/
def newKeysAux (existing : List (List Char)) :
    List (List Char × List Char) → List (List Char)
  | [] => []
  | p :: rest =>
    if p.1 ∈ existing then newKeysAux existing rest
    else p.1 :: newKeysAux (existing ++ [p.1]) rest

theorem foldl_insertTrailer_keys (U t : List (List Char × List Char)) :
    (U.foldl (fun m p => insertTrailer m p.1 p.2) t).map Prod.fst
      = t.map Prod.fst ++ newKeysAux (t.map Prod.fst) U := by
  induction U generalizing t with
  | nil => simp [newKeysAux]
  | cons q rest ih =>
    simp only [List.foldl_cons, newKeysAux]
    by_cases hq : q.1 ∈ t.map Prod.fst
    · rw [if_pos hq, ih, insertTrailer_keys, if_pos hq]
    · rw [if_neg hq, ih, insertTrailer_keys, if_neg hq]
      simp

theorem newKeysAux_eq_nil (existing : List (List Char))
    (U : List (List Char × List Char))
    (h : ∀ p ∈ U, p.1 ∈ existing) : newKeysAux existing U = [] := by
  induction U generalizing existing with
  | nil => rfl
  | cons q rest ih =>
    simp only [newKeysAux, if_pos (h q (List.mem_cons_self q rest))]
    exact ih existing (fun p hp => h p (List.mem_cons_of_mem q hp))

theorem mem_keys_insertTrailer_self (t : List (List Char × List Char))
    (k v : List Char) : k ∈ (insertTrailer t k v).map Prod.fst := by
  rw [insertTrailer_keys]
  by_cases hm : k ∈ t.map Prod.fst
  · rwa [if_pos hm]
  · rw [if_neg hm]
    simp

theorem mem_keys_foldl_insertTrailer (U : List (List Char × List Char)) :
    ∀ (t : List (List Char × List Char)) (q : List Char × List Char),
      q ∈ U →
      q.1 ∈ (U.foldl (fun m p => insertTrailer m p.1 p.2) t).map Prod.fst := by
  induction U with
  | nil =>
    intro t q hq
    simp at hq
  | cons q0 rest ih =>
    intro t q hq
    simp only [List.foldl_cons]
    rcases List.mem_cons.1 hq with rfl | hq0
    · rw [foldl_insertTrailer_keys]
      exact List.mem_append_left _ (mem_keys_insertTrailer_self t q.1 q.2)
    · exact ih _ q hq0

theorem insertTrailer_keys_nodup (t : List (List Char × List Char))
    (k v : List Char) (h : (t.map Prod.fst).Nodup) :
    ((insertTrailer t k v).map Prod.fst).Nodup := by
  rw [insertTrailer_keys]
  by_cases hm : k ∈ t.map Prod.fst
  · rwa [if_pos hm]
  · rw [if_neg hm]
    simp [List.nodup_append, h, hm]

theorem foldl_insertTrailer_keys_nodup
    (U t : List (List Char × List Char)) (h : (t.map Prod.fst).Nodup) :
    ((U.foldl (fun m p => insertTrailer m p.1 p.2) t).map Prod.fst).Nodup := by
  induction U generalizing t with
  | nil => exact h
  | cons q rest ih =>
    exact ih _ (insertTrailer_keys_nodup t q.1 q.2 h)

/-! ### Extensionality and well-formedness -/

theorem assoc_ext (t1 : List (List Char × List Char)) :
    ∀ t2 : List (List Char × List Char),
      t1.map Prod.fst = t2.map Prod.fst →
      (t1.map Prod.fst).Nodup →
      (∀ k, lookupT t1 k = lookupT t2 k) → t1 = t2 := by
  induction t1 with
  | nil =>
    intro t2 hk _ _
    exact (List.map_eq_nil_iff.1 hk.symm).symm
  | cons p r1 ih =>
    intro t2 hk hnd hl
    cases t2 with
    | nil => simp at hk
    | cons q r2 =>
      simp only [List.map_cons, List.cons.injEq] at hk
      obtain ⟨hpq, hrk⟩ := hk
      have hv : p.2 = q.2 := by
        have h1 : lookupT (p :: r1) p.1 = some p.2 := by simp [lookupT]
        have h2 : lookupT (q :: r2) p.1 = some q.2 := by
          simp [lookupT, hpq.symm]
        rw [hl p.1, h2] at h1
        exact (Option.some.injEq _ _ ▸ h1).symm
      simp only [List.map_cons, List.nodup_cons] at hnd
      have hre : r1 = r2 := by
        apply ih r2 hrk hnd.2
        intro k
        by_cases hkp : k = p.1
        · have hn1 : lookupT r1 k = none :=
            (lookupT_eq_none_iff r1 k).2 (by rw [hkp]; exact hnd.1)
          have hn2 : lookupT r2 k = none :=
            (lookupT_eq_none_iff r2 k).2 (by
              rw [hkp, ← hrk]
              exact hnd.1)
          rw [hn1, hn2]
        · have hp1 : p.1 ≠ k := fun h => hkp h.symm
          have hq1 : q.1 ≠ k := by
            rw [← hpq]
            exact hp1
          have e1 : lookupT (p :: r1) k = lookupT r1 k := by
            simp [lookupT, hp1]
          have e2 : lookupT (q :: r2) k = lookupT r2 k := by
            simp [lookupT, hq1]
          rw [← e1, ← e2, hl k]
      have hpq2 : p = q := by
        obtain ⟨p1, p2⟩ := p
        obtain ⟨q1, q2⟩ := q
        simp_all
      rw [hre, hpq2]

theorem insertTrailer_ne_nil (t : List (List Char × List Char))
    (k v : List Char) : insertTrailer t k v ≠ [] := by
  unfold insertTrailer
  by_cases h : t.any (fun p => p.1 == k) = true
  · rw [if_pos h]
    cases t with
    | nil => simp at h
    | cons p rest => simp
  · rw [if_neg h]
    simp

theorem foldl_insertTrailer_ne_nil (U t : List (List Char × List Char))
    (ht : t ≠ []) : U.foldl (fun m p => insertTrailer m p.1 p.2) t ≠ [] := by
  induction U generalizing t with
  | nil => exact ht
  | cons q rest ih =>
    exact ih _ (insertTrailer_ne_nil t q.1 q.2)

theorem mem_insertTrailer (t : List (List Char × List Char))
    (k v : List Char) (p : List Char × List Char)
    (h : p ∈ insertTrailer t k v) : p ∈ t ∨ p = (k, v) := by
  unfold insertTrailer at h
  by_cases ha : t.any (fun q => q.1 == k) = true
  · rw [if_pos ha] at h
    obtain ⟨q, hq, hfq⟩ := List.mem_map.1 h
    by_cases hqk : q.1 = k
    · right
      rw [← hfq]
      simp [hqk]
    · left
      rw [← hfq]
      simpa [hqk] using hq
  · rw [if_neg ha] at h
    rcases List.mem_append.1 h with h1 | h1
    · exact Or.inl h1
    · right
      simpa using h1

theorem mem_foldl_insertTrailer (U : List (List Char × List Char)) :
    ∀ (t : List (List Char × List Char)) (p : List Char × List Char),
      p ∈ U.foldl (fun m q => insertTrailer m q.1 q.2) t →
      p ∈ t ∨ p ∈ U := by
  induction U with
  | nil =>
    intro t p h
    exact Or.inl h
  | cons q rest ih =>
    intro t p h
    simp only [List.foldl_cons] at h
    rcases ih _ p h with h1 | h1
    · rcases mem_insertTrailer t q.1 q.2 p h1 with h2 | h2
      · exact Or.inl h2
      · exact Or.inr (h2 ▸ List.mem_cons_self q rest)
    · exact Or.inr (List.mem_cons_of_mem q h1)

/-! ### Well-formedness of parse output -/

/-- A well-formed trailer entry: valid key, single-line value. -/
def wfEntry (p : List Char × List Char) : Prop :=
  validKey p.1 = true ∧ '\n' ∉ p.2

instance (p : List Char × List Char) : Decidable (wfEntry p) := by
  unfold wfEntry
  infer_instance

theorem foldBlockLines_wf (ls : List (List Char)) :
    ∀ acc : List (List Char × List Char),
      (∀ p ∈ acc, wfEntry p) → (∀ l ∈ ls, '\n' ∉ l) →
      ∀ p ∈ foldBlockLines acc ls, wfEntry p := by
  induction ls with
  | nil =>
    intro acc hacc _ p hp
    simp only [foldBlockLines] at hp
    exact hacc p (List.mem_reverse.1 hp)
  | cons l rest ih =>
    intro acc hacc hnl p hp
    have hnll : '\n' ∉ l := hnl l (List.mem_cons_self l rest)
    have hnlr : ∀ x ∈ rest, '\n' ∉ x :=
      fun x hx => hnl x (List.mem_cons_of_mem l hx)
    cases hlt : lineTrailer l with
    | some q =>
      obtain ⟨k1, v1⟩ := q
      simp only [foldBlockLines, hlt] at hp
      refine ih ((k1, v1) :: acc) ?_ hnlr p hp
      intro r hr
      rcases List.mem_cons.1 hr with rfl | hr
      · obtain ⟨he, hk⟩ := lineTrailer_eq l k1 v1 hlt
        refine ⟨hk, fun hc => hnll ?_⟩
        rw [he]
        simp [hc]
      · exact hacc r hr
    | none =>
      cases acc with
      | nil =>
        simp only [foldBlockLines, hlt] at hp
        exact ih [] (by simp) hnlr p hp
      | cons a acc' =>
        obtain ⟨k0, v0⟩ := a
        simp only [foldBlockLines, hlt] at hp
        by_cases hcont : isContinuationLine l = true
        · rw [if_pos hcont] at hp
          refine ih _ ?_ hnlr p hp
          intro r hr
          rcases List.mem_cons.1 hr with rfl | hr
          · have ha := hacc (k0, v0) (List.mem_cons_self (k0, v0) acc')
            refine ⟨ha.1, fun hc => ?_⟩
            rcases List.mem_append.1 hc with h1 | h1
            · exact ha.2 h1
            · rcases List.mem_cons.1 h1 with h2 | h2
              · simp at h2
              · exact hnll ((List.dropWhile_sublist _).subset h2)
          · exact hacc r (List.mem_cons_of_mem (k0, v0) hr)
        · rw [if_neg hcont] at hp
          exact ih _ hacc hnlr p hp

theorem mem_trailerBlock (L : List (List Char)) (x : List Char)
    (hx : x ∈ trailerBlock L) : x ∈ L := by
  unfold trailerBlock at hx
  have h1 := (List.dropWhile_sublist isContinuationLine).subset hx
  have h2 := List.mem_reverse.1 h1
  exact List.mem_reverse.1 (mem_takeWhile isBlockLine L.reverse x h2).1

/-- Every trailer mapping produced by `parseCommitMessage` has
well-formed entries and duplicate-free keys. -/
theorem parse_trailers_wf (m : List Char) :
    (∀ p ∈ (parseCommitMessage m).2, wfEntry p)
    ∧ ((parseCommitMessage m).2.map Prod.fst).Nodup := by
  by_cases hb : (trailerBlock (splitLines m)).isEmpty = true
  · simp [parseCommitMessage, hb]
  · have h2 : (parseCommitMessage m).2
        = toTrailerDict (foldBlockLines [] (trailerBlock (splitLines m))) := by
      simp [parseCommitMessage, hb]
    rw [h2]
    have hraw : ∀ p ∈ foldBlockLines [] (trailerBlock (splitLines m)),
        wfEntry p := by
      apply foldBlockLines_wf _ [] (by simp)
      intro l hl
      exact mem_splitLines_no_newline m l
        (mem_trailerBlock (splitLines m) l hl)
    constructor
    · intro p hp
      rcases mem_foldl_insertTrailer _ [] p hp with h1 | h1
      · simp at h1
      · exact hraw p h1
    · exact foldl_insertTrailer_keys_nodup _ [] (by simp)

theorem filterMap_lineTrailer_map_render
    (t : List (List Char × List Char))
    (h : ∀ p ∈ t, validKey p.1 = true) :
    (t.map renderTrailer).filterMap lineTrailer = t := by
  induction t with
  | nil => rfl
  | cons p rest ih =>
    have hp := h p (List.mem_cons_self p rest)
    simp only [List.map_cons, List.filterMap_cons]
    rw [show lineTrailer (renderTrailer p) = some p from by
      obtain ⟨k, v⟩ := p
      exact lineTrailer_renderTrailer k v hp]
    rw [ih (fun q hq => h q (List.mem_cons_of_mem p hq))]

/-- Parsing the serialization of a body and a well-formed nonempty
mapping recovers both exactly. -/
theorem parse_serialize (body : List Char)
    (t : List (List Char × List Char)) (ht : t ≠ [])
    (hwf : ∀ p ∈ t, wfEntry p) (hnd : (t.map Prod.fst).Nodup) :
    parseCommitMessage (serializeCommitMessage body t) = (body, t) := by
  have hser : serializeCommitMessage body t
      = body ++ '\n' :: '\n' :: joinLines (t.map renderTrailer) := by
    unfold serializeCommitMessage
    rw [if_neg (by simpa using ht)]
  have hrnl : ∀ l ∈ t.map renderTrailer, '\n' ∉ l := by
    intro l hl
    obtain ⟨p, hp, rfl⟩ := List.mem_map.1 hl
    obtain ⟨hk, hv⟩ := hwf p hp
    intro hc
    unfold renderTrailer at hc
    rcases List.mem_append.1 hc with h1 | h1
    · exact validKey_no_newline p.1 hk h1
    · rcases List.mem_cons.1 h1 with h2 | h2
      · simp at h2
      · rcases List.mem_cons.1 h2 with h3 | h3
        · simp at h3
        · exact hv h3
  have hsplit : splitLines (serializeCommitMessage body t)
      = splitLines body ++ [] :: t.map renderTrailer := by
    rw [hser, splitLines_append body ('\n' :: joinLines (t.map renderTrailer))]
    congr 1
    rw [show ('\n' :: joinLines (t.map renderTrailer))
        = [] ++ '\n' :: joinLines (t.map renderTrailer) from rfl]
    rw [splitLines_append [] (joinLines (t.map renderTrailer))]
    rw [splitLines_joinLines (t.map renderTrailer) (by simpa using ht) hrnl]
    rfl
  have htrl : ∀ l ∈ t.map renderTrailer, isTrailerLine l = true := by
    intro l hl
    obtain ⟨p, hp, rfl⟩ := List.mem_map.1 hl
    obtain ⟨k, v⟩ := p
    unfold isTrailerLine
    rw [lineTrailer_renderTrailer k v (hwf (k, v) hp).1]
    rfl
  rw [parseCommitMessage_of_lines (serializeCommitMessage body t)
    (splitLines body) (t.map renderTrailer) hsplit (by simpa using ht) htrl]
  rw [joinLines_splitLines body]
  rw [foldBlockLines_all_trailer (t.map renderTrailer) htrl []]
  simp only [List.reverse_nil, List.nil_append]
  rw [filterMap_lineTrailer_map_render t (fun p hp => (hwf p hp).1)]
  rw [toTrailerDict_of_nodup t hnd]

/-! ### Non-emptiness facts and the parse of trailer-free messages -/

theorem dropWhileHeadFalse {α : Type} (p : α → Bool) (l : List α)
    (x : α) (xs : List α) (h : l.dropWhile p = x :: xs) : p x = false := by
  induction l with
  | nil => simp [List.dropWhile] at h
  | cons a l' ih =>
    by_cases ha : p a = true
    · rw [List.dropWhile_cons, if_pos ha] at h
      exact ih h
    · rw [List.dropWhile_cons, if_neg ha] at h
      obtain ⟨rfl, -⟩ := List.cons.inj h
      simpa using ha

theorem trailerBlock_head_trailer (L : List (List Char)) (x : List Char)
    (xs : List (List Char)) (h : trailerBlock L = x :: xs) :
    isTrailerLine x = true := by
  have hcont : isContinuationLine x = false := dropWhileHeadFalse _ _ _ _ h
  have hx : x ∈ trailerBlock L := by
    rw [h]
    exact List.mem_cons_self x xs
  unfold trailerBlock at hx
  have hblk := (mem_takeWhile isBlockLine L.reverse x
    (List.mem_reverse.1 ((List.dropWhile_sublist _).subset hx))).2
  unfold isBlockLine at hblk
  simpa [hcont] using hblk

theorem foldBlockLines_ne_nil (ls : List (List Char)) :
    ∀ acc : List (List Char × List Char),
      acc ≠ [] → foldBlockLines acc ls ≠ [] := by
  induction ls with
  | nil =>
    intro acc ha
    simpa [foldBlockLines] using ha
  | cons l rest ih =>
    intro acc ha
    cases hlt : lineTrailer l with
    | some q =>
      obtain ⟨k1, v1⟩ := q
      simp only [foldBlockLines, hlt]
      exact ih _ (by simp)
    | none =>
      cases acc with
      | nil => exact absurd rfl ha
      | cons a acc' =>
        obtain ⟨k0, v0⟩ := a
        simp only [foldBlockLines, hlt]
        by_cases hcont : isContinuationLine l = true
        · rw [if_pos hcont]
          exact ih _ (by simp)
        · rw [if_neg hcont]
          exact ih _ (by simp)

theorem toTrailerDict_ne_nil (pairs : List (List Char × List Char))
    (h : pairs ≠ []) : toTrailerDict pairs ≠ [] := by
  cases pairs with
  | nil => exact absurd rfl h
  | cons p rest =>
    unfold toTrailerDict
    simp only [List.foldl_cons]
    exact foldl_insertTrailer_ne_nil rest _ (insertTrailer_ne_nil [] p.1 p.2)

/-- A message parsed to an empty trailer mapping had no trailer block at
all, so its body is the whole message. -/
theorem parse_empty_trailers (m : List Char)
    (h : (parseCommitMessage m).2 = []) : parseCommitMessage m = (m, []) := by
  by_cases hb : (trailerBlock (splitLines m)).isEmpty = true
  · simp [parseCommitMessage, hb]
  · exfalso
    have h2 : (parseCommitMessage m).2
        = toTrailerDict (foldBlockLines [] (trailerBlock (splitLines m))) := by
      simp [parseCommitMessage, hb]
    rw [h2] at h
    cases hblk : trailerBlock (splitLines m) with
    | nil => simp [hblk] at hb
    | cons x xs =>
      have hx : isTrailerLine x = true :=
        trailerBlock_head_trailer _ x xs hblk
      rw [hblk] at h
      unfold isTrailerLine at hx
      cases hlt : lineTrailer x with
      | none =>
        rw [hlt] at hx
        simp at hx
      | some q =>
        obtain ⟨k1, v1⟩ := q
        apply toTrailerDict_ne_nil (foldBlockLines [] (x :: xs)) ?_ h
        simp only [foldBlockLines, hlt]
        exact foldBlockLines_ne_nil xs [(k1, v1)] (by simp)

/-! ### Filtering out the updated keys -/

theorem filter_map_update (t : List (List Char × List Char))
    (k v : List Char) (S : List (List Char)) (hk : k ∈ S) :
    (t.map (fun p => if p.1 == k then (k, v) else p)).filter
        (fun p => decide (p.1 ∉ S))
      = t.filter (fun p => decide (p.1 ∉ S)) := by
  induction t with
  | nil => rfl
  | cons p rest ih =>
    by_cases hp : p.1 = k
    · have hb : (p.1 == k) = true := by simp [hp]
      have hd1 : (decide ((k, v).1 ∉ S)) = false := by simp [hk]
      have hd2 : (decide (p.1 ∉ S)) = false := by simp [hp, hk]
      simp only [List.map_cons, hb, if_true, List.filter_cons, hd1, hd2, ih]
      simp
    · have hb : (p.1 == k) = false := by simp [hp]
      simp only [List.map_cons, hb, Bool.false_eq_true, if_false,
        List.filter_cons, ih]

theorem filter_insertTrailer (t : List (List Char × List Char))
    (k v : List Char) (S : List (List Char)) (hk : k ∈ S) :
    (insertTrailer t k v).filter (fun p => decide (p.1 ∉ S))
      = t.filter (fun p => decide (p.1 ∉ S)) := by
  unfold insertTrailer
  by_cases h : t.any (fun p => p.1 == k) = true
  · rw [if_pos h]
    exact filter_map_update t k v S hk
  · rw [if_neg h, List.filter_append]
    have : (decide ((k, v).1 ∉ S)) = false := by simp [hk]
    simp [List.filter_cons, this]
    exact hk

theorem filter_foldl_insertTrailer (U : List (List Char × List Char)) :
    ∀ (t : List (List Char × List Char)) (S : List (List Char)),
      (∀ q ∈ U, q.1 ∈ S) →
      (U.foldl (fun m p => insertTrailer m p.1 p.2) t).filter
          (fun p => decide (p.1 ∉ S))
        = t.filter (fun p => decide (p.1 ∉ S)) := by
  induction U with
  | nil =>
    intro t S _
    rfl
  | cons q rest ih =>
    intro t S hS
    simp only [List.foldl_cons]
    rw [ih _ S (fun r hr => hS r (List.mem_cons_of_mem q hr))]
    exact filter_insertTrailer t q.1 q.2 S (hS q (List.mem_cons_self q rest))

/-- C3, corrected: as stated over every update mapping the claim fails.
An update whose key is not valid trailer syntax (a space inside) is
appended as a line the parser does not recognize, so a second
application appends it again. -/
theorem C3_appendMetadata_counterexample :
    appendMetadata
        (appendMetadata ("m").data [(("bad key").data, ("v").data)])
        [(("bad key").data, ("v").data)]
      ≠ appendMetadata ("m").data [(("bad key").data, ("v").data)] := by
  decide

/-- C3, amended: for updates whose keys are valid trailer keys and whose
values are single-line, appendMetadata is idempotent, its trailers are
the fold of the updates into the parsed mapping, it never removes or
reorders a trailer whose key is outside the updates, and it updates
existing keys in place while appending the genuinely new keys in update
order. -/
theorem C3_appendMetadata_idempotent (m : List Char)
    (U : List (List Char × List Char)) (hU : ∀ p ∈ U, wfEntry p) :
    appendMetadata (appendMetadata m U) U = appendMetadata m U
    ∧ (parseCommitMessage (appendMetadata m U)).2
        = U.foldl (fun t p => insertTrailer t p.1 p.2) (parseCommitMessage m).2
    ∧ (U.foldl (fun t p => insertTrailer t p.1 p.2)
          (parseCommitMessage m).2).filter
            (fun p => decide (p.1 ∉ U.map Prod.fst))
        = (parseCommitMessage m).2.filter
            (fun p => decide (p.1 ∉ U.map Prod.fst))
    ∧ (U.foldl (fun t p => insertTrailer t p.1 p.2)
          (parseCommitMessage m).2).map Prod.fst
        = (parseCommitMessage m).2.map Prod.fst
          ++ newKeysAux ((parseCommitMessage m).2.map Prod.fst) U := by
  have hwf_t := parse_trailers_wf m
  have hwf' : ∀ p ∈ U.foldl (fun t p => insertTrailer t p.1 p.2)
      (parseCommitMessage m).2, wfEntry p := by
    intro p hp
    rcases mem_foldl_insertTrailer U (parseCommitMessage m).2 p hp with h1 | h1
    · exact hwf_t.1 p h1
    · exact hU p h1
  have hnd' := foldl_insertTrailer_keys_nodup U (parseCommitMessage m).2
    hwf_t.2
  by_cases ht' : U.foldl (fun t p => insertTrailer t p.1 p.2)
      (parseCommitMessage m).2 = []
  · have hU0 : U = [] := by
      cases U with
      | nil => rfl
      | cons q rest =>
        exfalso
        refine foldl_insertTrailer_ne_nil rest
          (insertTrailer (parseCommitMessage m).2 q.1 q.2)
          (insertTrailer_ne_nil _ q.1 q.2) ?_
        simpa using ht'
    subst hU0
    simp only [List.foldl_nil] at ht'
    have hpm := parse_empty_trailers m ht'
    have happ : appendMetadata m [] = m := by
      unfold appendMetadata
      rw [hpm]
      rfl
    refine ⟨?_, ?_, rfl, by simp [newKeysAux]⟩
    · rw [happ]
      exact happ
    · rw [happ, ht']
      rfl
  · have happ : appendMetadata m U
        = serializeCommitMessage (parseCommitMessage m).1
          (U.foldl (fun t p => insertTrailer t p.1 p.2)
            (parseCommitMessage m).2) := rfl
    have hps := parse_serialize (parseCommitMessage m).1
      (U.foldl (fun t p => insertTrailer t p.1 p.2) (parseCommitMessage m).2)
      ht' hwf' hnd'
    refine ⟨?_, ?_, ?_, foldl_insertTrailer_keys U (parseCommitMessage m).2⟩
    · have hfix : U.foldl (fun t p => insertTrailer t p.1 p.2)
          (U.foldl (fun t p => insertTrailer t p.1 p.2)
            (parseCommitMessage m).2)
          = U.foldl (fun t p => insertTrailer t p.1 p.2)
            (parseCommitMessage m).2 := by
        apply assoc_ext
        · rw [foldl_insertTrailer_keys, newKeysAux_eq_nil]
          · simp
          · intro p hp
            exact mem_keys_foldl_insertTrailer U (parseCommitMessage m).2 p hp
        · exact foldl_insertTrailer_keys_nodup U _ hnd'
        · intro k
          rw [foldl_insertTrailer_lookup U _ k]
          have h2 := foldl_insertTrailer_lookup U (parseCommitMessage m).2 k
          cases hlv : lastVal U k with
          | some v =>
            rw [hlv] at h2
            simp only
            rw [h2]
          | none => simp only
      conv_lhs => rw [happ]
      unfold appendMetadata
      rw [hps]
      simp only
      rw [hfix]
    · rw [happ, hps]
    · apply filter_foldl_insertTrailer
      intro q hq
      exact List.mem_map.2 ⟨q, hq, rfl⟩

/-- Witness for C3 at a concrete message and update list. -/
theorem C3_appendMetadata_idempotent_witness :
    appendMetadata
        (appendMetadata
          ("subj\n\nSigned-off-by: D <d@e.com>\ncodemcp-id: old").data
          [(("codemcp-id").data, ("new-id").data),
           (("New-key").data, ("value").data)])
        [(("codemcp-id").data, ("new-id").data),
         (("New-key").data, ("value").data)]
      = appendMetadata
          ("subj\n\nSigned-off-by: D <d@e.com>\ncodemcp-id: old").data
          [(("codemcp-id").data, ("new-id").data),
           (("New-key").data, ("value").data)] :=
  (C3_appendMetadata_idempotent
    ("subj\n\nSigned-off-by: D <d@e.com>\ncodemcp-id: old").data
    [(("codemcp-id").data, ("new-id").data),
     (("New-key").data, ("value").data)] (by decide)).1

/-! ## PathSandbox

Modelled from the spec: the path validator (spec §4.3 `validate`) is not
part of the sources here, only its end-to-end test is. Canonicalization
resolves `.` and `..` segments against the current directory whether the
path is absolute or relative; symlinks are modelled as absent (resolving
them needs a filesystem, and the claim's content is the segment
comparison). Acceptance is by path-segment comparison with the
repository root, never by raw string comparison.
-/

/-- Split a path into segments at `'/'`. -/
def splitSlash : List Char → List (List Char)
  | [] => [[]]
  | c :: rest =>
    if c = '/' then [] :: splitSlash rest
    else
      match splitSlash rest with
      | [] => [[c]]
      | l :: ls => (c :: l) :: ls

/-- Resolve `.`, `..` and empty segments against an accumulated
absolute segment stack; `..` at the root stays at the root. -/
def resolveSegs (acc : List (List Char)) : List (List Char) → List (List Char)
  | [] => acc
  | s :: rest =>
    if s = [] ∨ s = ['.'] then resolveSegs acc rest
    else if s = ['.', '.'] then resolveSegs acc.dropLast rest
    else resolveSegs (acc ++ [s]) rest

/-- Canonical absolute segment list of a requested path: an absolute
path is resolved from the root, a relative one against the (already
canonical) current directory. -/
def canonicalSegs (cwd : List (List Char)) (p : List Char) :
    List (List Char) :=
  if p.head? = some '/' then resolveSegs [] (splitSlash p)
  else resolveSegs cwd (splitSlash p)

/-- Segment-wise ancestor-or-equal comparison. -/
def segPre : List (List Char) → List (List Char) → Bool
  | [], _ => true
  | _ :: _, [] => false
  | a :: as, b :: bs => a == b && segPre as bs

/-- Join segments with `'/'`. -/
def joinSegs : List (List Char) → List Char
  | [] => []
  | [s] => s
  | s :: ss => s ++ '/' :: joinSegs ss

/-- Render an absolute segment list back into a path string. -/
def renderAbs (segs : List (List Char)) : List Char :=
  '/' :: joinSegs segs

/-- `validate(requestedPath, repoRoot)`, spec §4.3: canonicalize the
requested path, accept iff the canonical result equals the canonical
root or has it as a proper ancestor by path-segment comparison,
returning the canonical path; reject otherwise. -/
def validatePath (cwd : List (List Char)) (requested root : List Char) :
    Option (List Char) :=
  let c := canonicalSegs cwd requested
  let r := canonicalSegs cwd root
  if segPre r c then some (renderAbs c) else none

theorem segPre_iff (a : List (List Char)) :
    ∀ b, segPre a b = true ↔ a <+: b := by
  induction a with
  | nil =>
    intro b
    simp [segPre]
  | cons s as ih =>
    intro b
    cases b with
    | nil =>
      simp [segPre]
    | cons t bs =>
      simp [segPre, List.cons_prefix_cons, ih, Bool.and_eq_true,
        beq_iff_eq]

/-- C1: `validatePath` accepts exactly when the canonical form of the
requested path has the canonical repository root as a segment-wise
ancestor (or equals it); `/repo2` is rejected against boundary `/repo`
even though it is a raw string-prefix match, and absolute external
paths, single `..` and multi-level `..` escapes are rejected, while
in-repository paths (absolute, relative, or with interior `..`) are
accepted and canonicalized. -/
theorem C1_validatePath_segment_boundary :
    (∀ (cwd : List (List Char)) (requested root : List Char),
      (validatePath cwd requested root).isSome = true
        ↔ canonicalSegs cwd root <+: canonicalSegs cwd requested)
    ∧ validatePath [] ("/repo2/file.txt").data ("/repo").data = none
    ∧ ("/repo").data.isPrefixOf ("/repo2/file.txt").data = true
    ∧ validatePath [] ("/outside.txt").data ("/repo").data = none
    ∧ validatePath [] ("/repo/../outside.txt").data ("/repo").data = none
    ∧ validatePath [] ("/repo/sub/../../outside.txt").data ("/repo").data
        = none
    ∧ validatePath [] ("/repo/sub/../file.txt").data ("/repo").data
        = some ("/repo/file.txt").data
    ∧ validatePath [] ("/repo").data ("/repo").data = some ("/repo").data
    ∧ validatePath [("repo").data] ("file.txt").data ("/repo").data
        = some ("/repo/file.txt").data
    ∧ validatePath [("repo").data] ("../outside.txt").data ("/repo").data
        = none := by
  refine ⟨?_, by decide, by decide, by decide, by decide, by decide,
    by decide, by decide, by decide, by decide⟩
  intro cwd requested root
  unfold validatePath
  by_cases h : segPre (canonicalSegs cwd root) (canonicalSegs cwd requested)
      = true
  · simp [h, (segPre_iff _ _).1 h]
  · rw [if_neg (by simpa using h)]
    simp only [Option.isSome_none, Bool.false_eq_true, false_iff]
    intro hc
    exact h ((segPre_iff _ _).2 hc)

/-! ## ChatIdentityAllocator

Modelled from the spec: `_generate_chat_id` (`codemcp/tools/init_project.py`)
is not part of the sources here, only its unit tests are. Per spec §4.2:
outside a recognized repository the counter is `0` and no file I/O
happens; otherwise the counter file is read and parsed, a missing file,
unparseable content or a read failure counting as `0`; `next` is the
counter plus one (or `0` outside a repository); the write back is best
effort and cannot affect the returned id; the id is
`f"{next}-initproject-{random6}"` with six lowercase letters drawn at
random (the draw is a parameter of the model).
-/

/-- The decimal digit character for `d < 10`. -/
def digitChar (d : Nat) : Char := Char.ofNat (48 + d)

/-- Decimal rendering of a natural number, fuelled so that it stays
structurally recursive (`n + 1` fuel always suffices). -/
def natDigitsAux : Nat → Nat → List Char → List Char
  | 0, _, acc => acc
  | fuel + 1, n, acc =>
    if n < 10 then digitChar n :: acc
    else natDigitsAux fuel (n / 10) (digitChar (n % 10) :: acc)

/-- `f"{n}"` for a natural number. -/
def natRepr (n : Nat) : List Char := natDigitsAux (n + 1) n []

/-- `int(s)` as used on the counter file: `some` of the value when the
content is a nonempty digit string, `none` (a raised `ValueError`,
caught and treated as `0`) otherwise. -/
def parseNatDigits (s : List Char) : Option Nat :=
  if s ≠ [] ∧ s.all (fun c => c.isDigit) then
    some (s.foldl (fun acc c => acc * 10 + (c.toNat - 48)) 0)
  else none

/-- The input environment of one allocation. -/
structure AllocInput where
  inRepo : Bool
  counterFile : Option (Except Unit (List Char))
  writeOk : Bool
  randomSix : List Char

/-- The counter read in step 2 of §4.2: missing file, unreadable file or
unparseable content count as `0`. -/
def readCounter : Option (Except Unit (List Char)) → Nat
  | some (Except.ok s) => (parseNatDigits s).getD 0
  | _ => 0

/-- `_generate_chat_id`, modelled from §4.2 of the spec. -/
def generate_chat_id (inp : AllocInput) : List Char :=
  let next : Nat :=
    if inp.inRepo then readCounter inp.counterFile + 1 else 0
  natRepr next ++ ("-initproject-").data ++ inp.randomSix

theorem natDigitsAux_ne_nil (fuel n : Nat) (acc : List Char)
    (h : fuel > 0) : natDigitsAux fuel n acc ≠ [] := by
  induction fuel generalizing n acc with
  | zero => omega
  | succ f ih =>
    by_cases hn : n < 10
    · simp [natDigitsAux, hn]
    · simp only [natDigitsAux, if_neg hn]
      cases f with
      | zero =>
        simp [natDigitsAux]
      | succ f' => exact ih _ _ (by omega)

theorem natDigitsAux_digits (fuel : Nat) :
    ∀ (n : Nat) (acc : List Char), (∀ c ∈ acc, c.isDigit = true) →
      ∀ c ∈ natDigitsAux fuel n acc, c.isDigit = true := by
  induction fuel with
  | zero =>
    intro n acc hacc c hc
    exact hacc c hc
  | succ f ih =>
    intro n acc hacc c hc
    by_cases hn : n < 10
    · rw [natDigitsAux, if_pos hn] at hc
      rcases List.mem_cons.1 hc with rfl | hc
      · interval_cases n <;> decide
      · exact hacc c hc
    · rw [natDigitsAux, if_neg hn] at hc
      refine ih (n / 10) _ ?_ c hc
      intro c' hc'
      rcases List.mem_cons.1 hc' with rfl | hc'
      · have : n % 10 < 10 := Nat.mod_lt n (by omega)
        set d := n % 10 with hd
        interval_cases d <;> decide
      · exact hacc c' hc'

theorem natRepr_ne_nil (n : Nat) : natRepr n ≠ [] :=
  natDigitsAux_ne_nil (n + 1) n [] (by omega)

theorem natRepr_digits (n : Nat) : ∀ c ∈ natRepr n, c.isDigit = true :=
  natDigitsAux_digits (n + 1) n [] (by simp)

/-- The shape `^\d+-initproject-[a-z]{6}$`. -/
def ChatIdShape (id : List Char) : Prop :=
  ∃ ds r, id = ds ++ ("-initproject-").data ++ r
    ∧ ds ≠ [] ∧ (∀ c ∈ ds, c.isDigit = true)
    ∧ r.length = 6 ∧ (∀ c ∈ r, c.isLower = true)

/-- C8: every allocated chat id matches `^\d+-initproject-[a-z]{6}$`;
inside a recognized repository with a readable counter the prefix is the
stored counter plus one (`42` yields `43`); outside a recognized
repository the prefix is `0`; a read failure is absorbed (the id is
built from counter `0`, never an error); the best-effort write cannot
affect the result. -/
theorem C8_generate_chat_id (inp : AllocInput)
    (hr6 : inp.randomSix.length = 6)
    (hrl : ∀ c ∈ inp.randomSix, c.isLower = true) :
    ChatIdShape (generate_chat_id inp)
    ∧ (∀ s n, inp.inRepo = true →
        inp.counterFile = some (Except.ok s) → parseNatDigits s = some n →
        generate_chat_id inp
          = natRepr (n + 1) ++ ("-initproject-").data ++ inp.randomSix)
    ∧ (inp.inRepo = false →
        generate_chat_id inp = ("0-initproject-").data ++ inp.randomSix)
    ∧ (inp.inRepo = true → inp.counterFile = some (Except.error ()) →
        generate_chat_id inp = ("1-initproject-").data ++ inp.randomSix)
    ∧ (∀ b : Bool,
        generate_chat_id
          ⟨inp.inRepo, inp.counterFile, b, inp.randomSix⟩
          = generate_chat_id inp) := by
  refine ⟨?_, ?_, ?_, ?_, fun b => rfl⟩
  · exact ⟨natRepr (if inp.inRepo then readCounter inp.counterFile + 1 else 0),
      inp.randomSix, rfl, natRepr_ne_nil _, natRepr_digits _, hr6, hrl⟩
  · intro s n hrep hfile hparse
    unfold generate_chat_id
    rw [hrep, hfile]
    simp only [readCounter, hparse, Option.getD_some, if_true]
  · intro hrep
    unfold generate_chat_id
    rw [hrep]
    rfl
  · intro hrep hfile
    unfold generate_chat_id
    rw [hrep, hfile]
    rfl

/-- Witness for C8: the unit tests' two scenarios, stored counter `42`
and repository absent, with the deterministic draw `abcdef`. -/
theorem C8_generate_chat_id_witness :
    generate_chat_id
        ⟨true, some (Except.ok ("42").data), true, ("abcdef").data⟩
      = ("43-initproject-abcdef").data
    ∧ generate_chat_id ⟨false, none, true, ("abcdef").data⟩
      = ("0-initproject-abcdef").data := by
  constructor
  · have h := (C8_generate_chat_id
      ⟨true, some (Except.ok ("42").data), true, ("abcdef").data⟩
      (by decide) (by decide)).2.1 ("42").data 42 rfl rfl (by decide)
    rw [h]
    decide
  · have h := (C8_generate_chat_id ⟨false, none, true, ("abcdef").data⟩
      (by decide) (by decide)).2.2.1 rfl
    rw [h]
    decide
